import Mathlib

/-!
Shallow embedding of the connection pool, header utilities and DNS resolver
of the rquest HTTP client core, together with proofs of the specified
properties.

Sources embedded:
  - src/core/client/pool.rs   (Pool, PoolInner, IdlePopper, Checkout, put, ...)
  - src/core/proto/headers.rs (sort_headers, content_length_parse_all_values)
  - src/dns/resolve.rs        (DnsResolverWithOverrides)

Machine integers are modelled as Nat with explicit bounds where overflow
matters (u64 arithmetic in from_digits).  Instants are Nats; Rust's
saturating_duration_since is Nat subtraction.  Fallible code returns Option.
-/

namespace Rquest

/-! ## Association-list utilities

The pool keeps hash maps keyed by a generic key type.  We model a map as an
association list; insertion order of entries is irrelevant to the claims
except for the LRU, which is modelled with most-recently-used first.
-/

/-- Look up a key in an association list. -/
def lookupA {K V : Type} [DecidableEq K] (k : K) (l : List (K × V)) : Option V :=
  (l.find? (fun p => decide (p.1 = k))).map (·.2)

/-- Remove a key (all entries with that key) from an association list. -/
def eraseKey {K V : Type} [DecidableEq K] (k : K) (l : List (K × V)) : List (K × V) :=
  l.filter (fun p => !decide (p.1 = k))

/-- Replace the value stored at a key, keeping the entry position. -/
def setA {K V : Type} [DecidableEq K] (k : K) (v : V) (l : List (K × V)) : List (K × V) :=
  l.map (fun p => if p.1 = k then (k, v) else p)

/-! ## Data model: connections, idle entries, waiters -/

/-- A poolable connection (the Poolable trait): an identity plus the two
observable predicates is_open and can_share.  reserve() is determined by
can_share: sharable connections return Shared(clone, clone), others
Unique(self), matching the HTTP/2 / HTTP/1 reservation split. -/
structure Conn where
  cid : Nat
  isOpen : Bool
  canShare : Bool
deriving DecidableEq, Repr

/-- An entry of an idle list: the connection and the instant it went idle. -/
structure IdleC where
  idle_at : Nat
  value : Conn
deriving DecidableEq, Repr

/-- A parked checkout waiter: the oneshot sender.  closed means the
receiver side was dropped. -/
structure Sender where
  sid : Nat
  closed : Bool
deriving DecidableEq, Repr

/-- Protocol version marker from pool.rs. -/
inductive Ver where
  | Auto
  | Http2
deriving DecidableEq, Repr

/-- Pool configuration (pool.rs Config).  max_pool_size is NonZero<u32> in
the source; the Option carries the set/unset distinction and theorems add
the positivity hypothesis where needed. -/
structure Config where
  idle_timeout : Option Nat
  max_idle_per_host : Nat
  max_pool_size : Option Nat
deriving DecidableEq, Repr

/-- Config::is_enabled. -/
def Config.isEnabled (c : Config) : Bool :=
  decide (c.max_idle_per_host > 0)

/-- The guarded pool state (pool.rs PoolInner).  The exec / timer /
idle_interval_ref fields only spawn the background sweeper task and carry
no state the claims depend on, so they are not modelled.
idleLimit is the ByLength limit handed to the idle LRU by Pool::new. -/
structure PoolInner (K : Type) where
  connecting : List K
  idle : List (K × List IdleC)
  idleLimit : Nat
  max_idle_per_host : Nat
  waiters : List (K × List Sender)
  timeout : Option Nat
deriving DecidableEq, Repr

/-- Pool::new: enabled exactly when max_idle_per_host > 0; the idle LRU is
created with limit max_pool_size.map_or(u32::MAX, get). -/
def poolNew (K : Type) (cfg : Config) : Option (PoolInner K) :=
  if cfg.isEnabled then
    some
      { connecting := []
        idle := []
        idleLimit := cfg.max_pool_size.getD (2 ^ 32 - 1)
        max_idle_per_host := cfg.max_idle_per_host
        waiters := []
        timeout := cfg.idle_timeout }
  else none

/-! ## LRU map

Modelled from the spec: crate::core::map::LruMap (a wrapper over the
schnellru crate with a ByLength limiter) is not among the provided source
files.  Per spec section 4.7, the LRU bounds the number of distinct keys by
the limit; inserting a key that would exceed the bound evicts the
least-recently-used key together with its whole value.  We represent the
LRU as a list of entries, most-recently-used first. -/

/-- LruMap::peek - look up without promoting. -/
def lruPeek {K V : Type} [DecidableEq K] (k : K) (m : List (K × V)) : Option V :=
  lookupA k m

/-- LruMap::get - look up and promote the key to most-recently-used. -/
def lruGet {K V : Type} [DecidableEq K] (k : K) (m : List (K × V)) :
    Option V × List (K × V) :=
  match lookupA k m with
  | some v => (some v, (k, v) :: eraseKey k m)
  | none => (none, m)

/-- LruMap::get_or_insert with a length limit: on a hit, promote; on a
miss, insert at the front and evict least-recently-used entries beyond the
limit. -/
def lruGetOrInsert {K V : Type} [DecidableEq K] (limit : Nat) (k : K) (d : V)
    (m : List (K × V)) : List (K × V) :=
  match lookupA k m with
  | some v => (k, v) :: eraseKey k m
  | none =>
    let m2 := (k, d) :: m
    if m2.length > limit then m2.take limit else m2

/-! ## Pool::connecting and the Connecting token -/

/-- The Connecting token: proof a dial is in flight.  hasPoolRef mirrors
whether the token holds a weak reference to the pool (only the HTTP/2 path
on an enabled pool does). -/
structure ConnectingTok (K : Type) where
  key : K
  hasPoolRef : Bool
deriving DecidableEq, Repr

/-- Pool::connecting on an enabled pool: for Http2, try to insert the key
into the connecting set; Some token on fresh insertion, None if already
present.  For Auto, always Some with no key recorded and no pool
reference. -/
def connecting {K : Type} [DecidableEq K] (k : K) (ver : Ver) (s : PoolInner K) :
    Option (ConnectingTok K) × PoolInner K :=
  match ver with
  | Ver.Http2 =>
    if s.connecting.contains k then (none, s)
    else (some ⟨k, true⟩, { s with connecting := k :: s.connecting })
  | Ver.Auto => (some ⟨k, false⟩, s)

/-- PoolInner::connected: remove the key from the connecting set and cancel
any still-parked waiters for it. -/
def connected {K : Type} [DecidableEq K] (k : K) (s : PoolInner K) : PoolInner K :=
  { s with
    connecting := s.connecting.filter (fun x => !decide (x = k))
    waiters := eraseKey k s.waiters }

/-- Drop of a Connecting token: when it holds a pool reference, run
PoolInner::connected; otherwise nothing. -/
def dropConnectingTok {K : Type} [DecidableEq K] (t : ConnectingTok K)
    (s : PoolInner K) : PoolInner K :=
  if t.hasPoolRef then connected t.key s else s

end Rquest

namespace Rquest

/-! ## PoolInner::put -/

/-- The waiter-fulfilment loop of PoolInner::put: pop senders from the
front; a closed sender is discarded; an open sender receives the value via
reserve().  A Unique reservation consumes the value and the loop breaks; a
Shared reservation keeps a copy and the loop continues.  Returns the value
still held (if any), the queue remainder, and the ids of the senders that
received a connection, in delivery order. -/
def fulfil (v : Conn) : List Sender → Option Conn × List Sender × List Nat
  | [] => (some v, [], [])
  | tx :: rest =>
    if tx.closed then fulfil v rest
    else if v.canShare then
      let r := fulfil v rest
      (r.1, r.2.1, tx.sid :: r.2.2)
    else (none, rest, [tx.sid])

/-- PoolInner::put.  Returns the new state and the delivered sender ids.
now is Instant::now() at the call. -/
def put {K : Type} [DecidableEq K] (now : Nat) (k : K) (v : Conn)
    (s : PoolInner K) : PoolInner K × List Nat :=
  if v.canShare && (lruPeek k s.idle).isSome then (s, [])
  else
    let fr :=
      match lookupA k s.waiters with
      | some q =>
        let r := fulfil v q
        (r.1, (if r.2.1.isEmpty then eraseKey k s.waiters else setA k r.2.1 s.waiters),
          r.2.2)
      | none => (some v, s.waiters, [])
    match fr.1 with
    | none => ({ s with waiters := fr.2.1 }, fr.2.2)
    | some v2 =>
      let idle2 := lruGetOrInsert s.idleLimit k ([] : List IdleC) s.idle
      let cur := (lruPeek k idle2).getD []
      if s.max_idle_per_host ≤ cur.length then
        ({ s with idle := idle2, waiters := fr.2.1 }, fr.2.2)
      else
        ({ s with idle := setA k (cur ++ [⟨now, v2⟩]) idle2, waiters := fr.2.1 },
          fr.2.2)

/-- Iterated put of a sequence of values for one key, accumulating the
delivered sender ids in order. -/
def putSeq {K : Type} [DecidableEq K] (now : Nat) (k : K) (vs : List Conn)
    (s : PoolInner K) : PoolInner K × List Nat :=
  vs.foldl (fun acc v =>
    let r := put now k v acc.1
    (r.1, acc.2 ++ r.2)) (s, [])

/-! ## Expiration and IdlePopper -/

/-- Expiration::expires: with a timeout, an entry expires when
now.saturating_duration_since(idle_at) > timeout; without one, never. -/
def expires (now : Nat) (timeout : Option Nat) (idle_at : Nat) : Bool :=
  match timeout with
  | some t => decide (now - idle_at > t)
  | none => false

/-- IdlePopper::pop on the reversed list (the Rust Vec pops from the back,
so the head here is the back of the list).  Closed or expired entries are
dropped; the first survivor is reserved: a sharable survivor reinserts a
copy stamped now at the back (the head in this orientation), a unique one
is taken as is. -/
def idlePopAux (now : Nat) (timeout : Option Nat) :
    List IdleC → Option (IdleC × List IdleC)
  | [] => none
  | e :: rest =>
    if !e.value.isOpen then idlePopAux now timeout rest
    else if expires now timeout e.idle_at then idlePopAux now timeout rest
    else if e.value.canShare then
      some (⟨e.idle_at, e.value⟩, ⟨now, e.value⟩ :: rest)
    else some (e, rest)

/-- IdlePopper::pop in the original list orientation (back = list end). -/
def idlePop (now : Nat) (timeout : Option Nat) (l : List IdleC) :
    Option (IdleC × List IdleC) :=
  (idlePopAux now timeout l.reverse).map (fun p => (p.1, p.2.reverse))

/-! ## Checkout -/

/-- Append a fresh open sender to the back of the waiter queue of a key,
creating the queue when absent. -/
def appendWaiter {K : Type} [DecidableEq K] (k : K) (sid : Nat)
    (w : List (K × List Sender)) : List (K × List Sender) :=
  match lookupA k w with
  | some q => setA k (q ++ [⟨sid, false⟩]) w
  | none => (k, [⟨sid, false⟩]) :: w

/-- Checkout::checkout (one poll of the idle-scan path).  hasWaiter is
whether self.waiter is already registered from a previous poll; newSid is
the id of the oneshot created if a waiter must be parked.  Returns the
popped idle entry, if any, and the new state. -/
def checkoutPoll {K : Type} [DecidableEq K] (now : Nat) (k : K) (newSid : Nat)
    (hasWaiter : Bool) (s : PoolInner K) : Option IdleC × PoolInner K :=
  let g := lruGet k s.idle
  let popped :=
    match g.1 with
    | some l => idlePop now s.timeout l
    | none => none
  match popped with
  | some (e, l2) =>
    let idle2 :=
      if l2.isEmpty then eraseKey k g.2 else setA k l2 g.2
    (some e, { s with idle := idle2 })
  | none =>
    let idle2 := eraseKey k g.2
    if hasWaiter then (none, { s with idle := idle2 })
    else (none, { s with idle := idle2, waiters := appendWaiter k newSid s.waiters })

/-! ## Waiter cleanup on Checkout drop -/

/-- PoolInner::clean_waiters: retain only senders whose receiver is still
alive; remove the key when the queue becomes empty. -/
def cleanWaiters {K : Type} [DecidableEq K] (k : K) (s : PoolInner K) : PoolInner K :=
  match lookupA k s.waiters with
  | some q =>
    let q2 := q.filter (fun tx => !tx.closed)
    if q2.isEmpty then { s with waiters := eraseKey k s.waiters }
    else { s with waiters := setA k q2 s.waiters }
  | none => s

/-- Mark the sender with a given id as closed inside one key's queue (the
effect of dropping the Checkout's oneshot receiver). -/
def markClosed {K : Type} [DecidableEq K] (k : K) (sid : Nat)
    (w : List (K × List Sender)) : List (K × List Sender) :=
  match lookupA k w with
  | some q => setA k (q.map (fun tx => if tx.sid = sid then ⟨tx.sid, true⟩ else tx)) w
  | none => w

/-- Drop of a pending Checkout whose waiter is registered: the receiver
drop closes the sender, then PoolInner::clean_waiters runs for the key. -/
def dropCheckout {K : Type} [DecidableEq K] (k : K) (sid : Nat)
    (s : PoolInner K) : PoolInner K :=
  cleanWaiters k { s with waiters := markClosed k sid s.waiters }

end Rquest

namespace Rquest

/-! ## Header map model (src/core/proto/headers.rs)

http::HeaderMap is modelled as a grouped multimap: a list of
(name, values) groups, group order being the insertion order of each
name's first value, values of one name kept in append order.  This matches
the crate's observable iteration, get_all, append, remove and drain
behavior.  len counts values, not names. -/

/-- Total number of values held by a header map. -/
def hLen {N V : Type} (m : List (N × List V)) : Nat :=
  (m.map (fun p => p.2.length)).sum

/-- HeaderMap::append - add a value at the end of its name's group,
creating the group at the end of the map when the name is new. -/
def hAppend1 {N V : Type} [DecidableEq N] (n : N) (v : V)
    (m : List (N × List V)) : List (N × List V) :=
  match lookupA n m with
  | some vs => setA n (vs ++ [v]) m
  | none => m ++ [(n, [v])]

/-- HeaderMap::drain - yield every value; the first value of each group
carries Some(name), the following values of the same group carry None. -/
def drainPairs {N V : Type} (m : List (N × List V)) : List (Option N × V) :=
  m.foldr (fun p acc =>
    (match p.2 with
     | [] => []
     | v :: vs => (some p.1, v) :: vs.map (fun v2 => ((none : Option N), v2))) ++ acc) []

/-- sort_headers from headers.rs: if the map holds at most one value it is
returned unchanged; otherwise the names listed in OriginalHeaders are
moved to the front (all their values, removing them from the source map),
then the remaining map is drained into the result, appending only the
pairs that carry a name.  orig is the OriginalHeaders key list; modelled
from the spec: OriginalHeaders is defined outside the provided sources as
an ordered list of header names, keys() yielding them in order. -/
def sortHeaders {N V : Type} [DecidableEq N] (orig : List N)
    (m : List (N × List V)) : List (N × List V) :=
  if hLen m ≤ 1 then m
  else
    let p := orig.foldl
      (fun (p : List (N × List V) × List (N × List V)) n =>
        (((lookupA n p.2).getD []).foldl (fun acc v => hAppend1 n v acc) p.1,
          eraseKey n p.2))
      ([], m)
    (drainPairs p.2).foldl
      (fun acc pr =>
        match pr.1 with
        | some n => hAppend1 n pr.2 acc
        | none => acc)
      p.1

/-- The headers of the input map whose names are listed in orig, as groups
in orig order with all their values (the spec's required front part). -/
def listedPart {N V : Type} [DecidableEq N] (orig : List N)
    (m : List (N × List V)) : List (N × List V) :=
  orig.filterMap (fun n => (lookupA n m).map (fun vs => (n, vs)))

/-- The groups of the input map whose names are not listed, in original
order. -/
def unlistedPart {N V : Type} [DecidableEq N] (orig : List N)
    (m : List (N × List V)) : List (N × List V) :=
  m.filter (fun p => !orig.contains p.1)

/-! ## Content-Length parsing (src/core/proto/headers.rs) -/

/-- u64::MAX. -/
def U64MAX : Nat := 2 ^ 64 - 1

/-- The byte predicate of http::HeaderValue::to_str: visible ASCII or
horizontal tab. -/
def visibleAscii (b : Nat) : Bool :=
  decide ((32 ≤ b ∧ b < 127) ∨ b = 9)

/-- HeaderValue::to_str: succeeds exactly when every byte is visible
ASCII, in which case the string's bytes are the value's bytes. -/
def toStr (bytes : List Nat) : Option (List Nat) :=
  if bytes.all visibleAscii then some bytes else none

/-- str::split on a comma: Rust semantics, so an empty input yields one
empty piece and each comma separates pieces. -/
def splitComma (l : List Nat) : List (List Nat) :=
  l.foldr
    (fun c acc =>
      match acc with
      | [] => [[c]]
      | cur :: rest => if c = 44 then [] :: cur :: rest else (c :: cur) :: rest)
    [[]]

/-- Unicode White_Space code points (the set trimmed by Rust's
str::trim). -/
def isWhiteCp (c : Nat) : Bool :=
  decide ((9 ≤ c ∧ c ≤ 13) ∨ c = 32 ∨ c = 133 ∨ c = 160 ∨ c = 5760 ∨
    (8192 ≤ c ∧ c ≤ 8202) ∨ c = 8232 ∨ c = 8233 ∨ c = 8239 ∨ c = 8287 ∨ c = 12288)

/-- str::trim on a list of code points. -/
def trimCp (l : List Nat) : List Nat :=
  ((l.dropWhile isWhiteCp).reverse.dropWhile isWhiteCp).reverse

/-- ASCII digit. -/
def isDigitB (b : Nat) : Bool :=
  decide (48 ≤ b ∧ b ≤ 57)

/-- The loop of from_digits: result = result * 10 + digit with u64 checked
arithmetic, rejecting any non-digit byte. -/
def fromDigitsLoop : Nat → List Nat → Option Nat
  | r, [] => some r
  | r, b :: rest =>
    if isDigitB b then
      if r * 10 > U64MAX then none
      else if r * 10 + (b - 48) > U64MAX then none
      else fromDigitsLoop (r * 10 + (b - 48)) rest
    else none

/-- from_digits: empty input is rejected, otherwise the checked decimal
parse. -/
def fromDigits (bytes : List Nat) : Option Nat :=
  if bytes.isEmpty then none else fromDigitsLoop 0 bytes

/-- The inner loop of content_length_parse_all_values over the
comma-separated items of one header line.  The outer Option is the early
return (None); the inner Option is the running content_length. -/
def clItems : Option Nat → List (List Nat) → Option (Option Nat)
  | acc, [] => some acc
  | acc, item :: rest =>
    match fromDigits (trimCp item) with
    | some n =>
      match acc with
      | none => clItems (some n) rest
      | some m => if m = n then clItems (some m) rest else none
    | none => none

/-- The outer loop of content_length_parse_all_values over the header
values. -/
def clValues : Option Nat → List (List Nat) → Option Nat
  | acc, [] => acc
  | acc, v :: rest =>
    match toStr v with
    | some s =>
      match clItems acc (splitComma s) with
      | some acc2 => clValues acc2 rest
      | none => none
    | none => none

/-- content_length_parse_all_values: each value must be a to_str-able
header line whose comma-separated items all parse, via from_digits after
trimming, to one and the same u64. -/
def contentLengthParseAllValues (values : List (List Nat)) : Option Nat :=
  clValues none values

/-- Whether a continuation byte of a UTF-8 sequence. -/
def isCont (b : Nat) : Bool :=
  decide (128 ≤ b ∧ b ≤ 191)

/-- UTF-8 decoding with explicit fuel (each step consumes at least one
byte, so length fuel is exact): returns the code points when the bytes are
valid UTF-8 per RFC 3629, none otherwise. -/
def utf8DecodeFuel : Nat → List Nat → Option (List Nat)
  | _, [] => some []
  | 0, _ :: _ => none
  | fuel + 1, b1 :: t1 =>
    if b1 < 128 then (utf8DecodeFuel fuel t1).map (fun r => b1 :: r)
    else
      match t1 with
      | b2 :: t2 =>
        if 194 ≤ b1 ∧ b1 ≤ 223 ∧ isCont b2 = true then
          (utf8DecodeFuel fuel t2).map (fun r => ((b1 - 192) * 64 + (b2 - 128)) :: r)
        else
          match t2 with
          | b3 :: t3 =>
            if ((b1 = 224 ∧ 160 ≤ b2 ∧ b2 ≤ 191) ∨
                (225 ≤ b1 ∧ b1 ≤ 236 ∧ isCont b2 = true) ∨
                (b1 = 237 ∧ 128 ≤ b2 ∧ b2 ≤ 159) ∨
                (238 ≤ b1 ∧ b1 ≤ 239 ∧ isCont b2 = true)) ∧ isCont b3 = true then
              (utf8DecodeFuel fuel t3).map
                (fun r => ((b1 - 224) * 4096 + (b2 - 128) * 64 + (b3 - 128)) :: r)
            else
              match t3 with
              | b4 :: t4 =>
                if ((b1 = 240 ∧ 144 ≤ b2 ∧ b2 ≤ 191) ∨
                    (241 ≤ b1 ∧ b1 ≤ 243 ∧ isCont b2 = true) ∨
                    (b1 = 244 ∧ 128 ≤ b2 ∧ b2 ≤ 143)) ∧
                    isCont b3 = true ∧ isCont b4 = true then
                  (utf8DecodeFuel fuel t4).map
                    (fun r =>
                      ((b1 - 240) * 262144 + (b2 - 128) * 4096 +
                        (b3 - 128) * 64 + (b4 - 128)) :: r)
                else none
              | [] => none
          | [] => none
      | [] => none

/-- UTF-8 decoding of a byte list. -/
def utf8Decode (l : List Nat) : Option (List Nat) :=
  utf8DecodeFuel l.length l

/-- Decimal value of a digit string. -/
def digitsVal (l : List Nat) : Nat :=
  l.foldl (fun r b => r * 10 + (b - 48)) 0

/-- One comma item is good for n: after trimming it is a non-empty
all-ASCII-digit string of value n. -/
def goodItem (n : Nat) (item : List Nat) : Bool :=
  let t := trimCp item
  !t.isEmpty && t.all isDigitB && decide (digitsVal t = n)

/-- The specification predicate of claim C10 exactly as stated: the value
sequence is non-empty, every value is valid UTF-8, and every
comma-separated item, after (Unicode) trimming, is a non-empty
all-ASCII-digit string of the same value n, without exceeding u64. -/
def specCLUtf8 (values : List (List Nat)) (n : Nat) : Bool :=
  !values.isEmpty && decide (n ≤ U64MAX) &&
    values.all (fun v =>
      match utf8Decode v with
      | some cps => (splitComma cps).all (goodItem n)
      | none => false)

/-- The amended specification predicate: as specCLUtf8 but requiring every
value to consist of visible-ASCII bytes (the condition http's
HeaderValue::to_str actually checks) instead of merely valid UTF-8. -/
def specCLBytes (values : List (List Nat)) (n : Nat) : Bool :=
  !values.isEmpty && decide (n ≤ U64MAX) &&
    values.all (fun v => v.all visibleAscii && (splitComma v).all (goodItem n))

/-! ## DNS resolver with overrides (src/dns/resolve.rs) -/

/-- The future returned by a resolver: either immediately ready with a
fixed address list (std::future::ready) or some other future produced by
an underlying resolver. -/
inductive Resolving (A : Type) where
  | readyNow : List A → Resolving A
  | fut : Nat → Resolving A
deriving DecidableEq, Repr

/-- DnsResolverWithOverrides::resolve: a name present in the overrides map
short-circuits to an immediately-ready future with the configured address
list; any other name is delegated unchanged to the underlying resolver. -/
def resolveWithOverrides {A : Type} (ov : List (String × List A))
    (underlying : String → Resolving A) (name : String) : Resolving A :=
  match lookupA name ov with
  | some dest => Resolving.readyNow dest
  | none => underlying name

end Rquest

namespace Rquest

/-! ## Association-list lemmas -/

theorem lookupA_cons {K V : Type} [DecidableEq K] (k : K) (p : K × V)
    (l : List (K × V)) :
    lookupA k (p :: l) = if p.1 = k then some p.2 else lookupA k l := by
  by_cases h : p.1 = k
  · simp [lookupA, List.find?, h]
  · simp [lookupA, List.find?, h]

theorem eraseKey_cons {K V : Type} [DecidableEq K] (k : K) (p : K × V)
    (l : List (K × V)) :
    eraseKey k (p :: l) = if p.1 = k then eraseKey k l else p :: eraseKey k l := by
  by_cases h : p.1 = k
  · simp [eraseKey, List.filter_cons, h]
  · simp [eraseKey, List.filter_cons, h]

theorem setA_cons {K V : Type} [DecidableEq K] (k : K) (v : V) (p : K × V)
    (l : List (K × V)) :
    setA k v (p :: l) = (if p.1 = k then (k, v) else p) :: setA k v l := rfl

theorem lookupA_setA_self {K V : Type} [DecidableEq K] (k : K) (v : V)
    (l : List (K × V)) :
    lookupA k (setA k v l) = (lookupA k l).map (fun _ => v) := by
  induction l with
  | nil => rfl
  | cons p rest ih =>
    rw [setA_cons]
    by_cases h : p.1 = k
    · rw [if_pos h, lookupA_cons, lookupA_cons]
      simp [h]
    · rw [if_neg h, lookupA_cons, lookupA_cons]
      simp only [if_neg h]
      exact ih

theorem lookupA_setA_ne {K V : Type} [DecidableEq K] (j k : K) (v : V)
    (l : List (K × V)) (hjk : j ≠ k) :
    lookupA j (setA k v l) = lookupA j l := by
  induction l with
  | nil => rfl
  | cons p rest ih =>
    rw [setA_cons]
    by_cases h : p.1 = k
    · rw [if_pos h, lookupA_cons, lookupA_cons]
      have h1 : ((k, v) : K × V).1 ≠ j := fun hh => hjk hh.symm
      have h2 : p.1 ≠ j := fun hh => hjk (hh.symm.trans h)
      rw [if_neg h1, if_neg h2]
      exact ih
    · rw [if_neg h, lookupA_cons, lookupA_cons]
      by_cases h2 : p.1 = j
      · simp [h2]
      · rw [if_neg h2, if_neg h2]
        exact ih

theorem lookupA_eraseKey_self {K V : Type} [DecidableEq K] (k : K)
    (l : List (K × V)) :
    lookupA k (eraseKey k l) = none := by
  induction l with
  | nil => rfl
  | cons p rest ih =>
    rw [eraseKey_cons]
    by_cases h : p.1 = k
    · rw [if_pos h]; exact ih
    · rw [if_neg h, lookupA_cons, if_neg h]; exact ih

theorem lookupA_eraseKey_ne {K V : Type} [DecidableEq K] (j k : K)
    (l : List (K × V)) (hjk : j ≠ k) :
    lookupA j (eraseKey k l) = lookupA j l := by
  induction l with
  | nil => rfl
  | cons p rest ih =>
    rw [eraseKey_cons]
    by_cases h : p.1 = k
    · have h2 : p.1 ≠ j := fun hh => hjk (hh.symm.trans h)
      rw [if_pos h, lookupA_cons, if_neg h2]
      exact ih
    · rw [if_neg h, lookupA_cons, lookupA_cons]
      by_cases h2 : p.1 = j
      · simp [h2]
      · rw [if_neg h2, if_neg h2]
        exact ih

theorem lookupA_none_iff {K V : Type} [DecidableEq K] (k : K) (l : List (K × V)) :
    lookupA k l = none ↔ k ∉ l.map Prod.fst := by
  induction l with
  | nil => simp [lookupA]
  | cons p rest ih =>
    rw [lookupA_cons]
    by_cases h : p.1 = k
    · simp [h]
    · simp only [List.map_cons, List.mem_cons, if_neg h]
      constructor
      · intro hn hmem
        rcases hmem with hmem | hmem
        · exact h hmem.symm
        · exact (ih.mp hn) hmem
      · intro hmem
        exact ih.mpr (fun hm => hmem (Or.inr hm))

end Rquest

namespace Rquest

/-! ## Claim C1 -/

/-- C1: single-flight for HTTP/2 dials.  On an enabled pool,
connecting(k, Http2) returns Some token exactly when k was not already in
the connecting set, inserting k; while k is in the set every further
Http2 call returns None; dropping the token removes k, after which
connecting succeeds again.  For Auto the call always returns Some, records
no key and leaves the state unchanged. -/
theorem contains_eq_false {K : Type} [DecidableEq K] (l : List K) (k : K) :
    l.contains k = false ↔ k ∉ l := by
  rw [Bool.eq_false_iff]
  constructor
  · intro h hm
    exact h (List.elem_iff.mpr hm)
  · intro h hc
    exact h (List.elem_iff.mp hc)

/-- C1: single-flight for HTTP/2 dials.  On an enabled pool,
connecting(k, Http2) returns Some token exactly when k was not already in
the connecting set, inserting k; while k is in the set every further
Http2 call returns None; dropping the token removes k, after which
connecting succeeds again.  For Auto the call always returns Some, records
no key and leaves the state unchanged. -/
theorem c1_connecting_single_flight {K : Type} [DecidableEq K]
    (s : PoolInner K) (k : K) :
    (s.connecting.contains k = false →
      connecting k Ver.Http2 s =
        (some ⟨k, true⟩, { s with connecting := k :: s.connecting }) ∧
      (connecting k Ver.Http2 s).2.connecting.contains k = true) ∧
    (s.connecting.contains k = true → connecting k Ver.Http2 s = (none, s)) ∧
    connecting k Ver.Auto s = (some ⟨k, false⟩, s) ∧
    (dropConnectingTok ⟨k, true⟩ s).connecting.contains k = false ∧
    (connecting k Ver.Http2 (dropConnectingTok ⟨k, true⟩ s)).1.isSome = true := by
  have hdrop : (dropConnectingTok ⟨k, true⟩ s).connecting.contains k = false := by
    rw [contains_eq_false]
    simp only [dropConnectingTok, if_pos rfl, connected]
    intro hc
    rcases List.mem_filter.mp hc with ⟨_, hp⟩
    simp at hp
  refine ⟨fun h => ⟨?_, ?_⟩, fun h => ?_, rfl, hdrop, ?_⟩
  · simp only [connecting]
    rw [h]
    simp
  · simp only [connecting]
    rw [h]
    simp only [Bool.false_eq_true, if_neg (fun hh : False => hh.elim)]
    exact List.elem_iff.mpr (List.mem_cons_self k s.connecting)
  · simp only [connecting]
    rw [h]
    simp
  · simp only [connecting]
    rw [hdrop]
    simp

/-- A small concrete pool state over Nat keys. -/
def s0 : PoolInner Nat :=
  { connecting := []
    idle := []
    idleLimit := 8
    max_idle_per_host := 4
    waiters := []
    timeout := some 90 }

/-- Witness for C1 at a concrete state and key. -/
theorem c1_witness :
    connecting 7 Ver.Http2 s0 =
      (some ⟨7, true⟩, { s0 with connecting := [7] }) ∧
    connecting 7 Ver.Http2 { s0 with connecting := [7] } =
      (none, { s0 with connecting := [7] }) ∧
    connecting 7 Ver.Auto s0 = (some ⟨7, false⟩, s0) ∧
    (connecting 7 Ver.Http2
      (dropConnectingTok ⟨7, true⟩ { s0 with connecting := [7] })).1.isSome = true := by
  refine ⟨((c1_connecting_single_flight s0 7).1 (by decide)).1, ?_, ?_, ?_⟩
  · exact (c1_connecting_single_flight { s0 with connecting := [7] } 7).2.1 (by decide)
  · exact (c1_connecting_single_flight s0 7).2.2.1
  · exact (c1_connecting_single_flight { s0 with connecting := [7] } 7).2.2.2.2

/-! ## Claim C6 -/

/-- C6: duplicate shared-connection drop.  When put is called with a
sharable value and the idle list of the key already holds a shared entry,
put returns with the state unchanged: no waiter is fulfilled and the idle
lists are untouched. -/
theorem c6_put_duplicate_shared_dropped {K : Type} [DecidableEq K]
    (now : Nat) (k : K) (v : Conn) (s : PoolInner K) (l : List IdleC) (e : IdleC)
    (hv : v.canShare = true) (hl : lruPeek k s.idle = some l)
    (he : e ∈ l) (hes : e.value.canShare = true) :
    put now k v s = (s, []) := by
  simp [put, hv, hl]

/-- A concrete idle entry holding a shared open connection. -/
def e6 : IdleC := ⟨3, ⟨5, true, true⟩⟩

/-- A concrete pool state whose idle list for key 1 holds e6. -/
def s6 : PoolInner Nat :=
  { connecting := []
    idle := [(1, [e6])]
    idleLimit := 8
    max_idle_per_host := 4
    waiters := [(1, [⟨21, false⟩])]
    timeout := none }

/-- Witness for C6: a second sharable connection for key 1 is dropped. -/
theorem c6_witness : put 9 1 ⟨6, true, true⟩ s6 = (s6, []) :=
  c6_put_duplicate_shared_dropped 9 1 ⟨6, true, true⟩ s6 [e6] e6
    (by decide) (by decide) (by decide) (by decide)

end Rquest

namespace Rquest

/-! ## Claim C7 -/

theorem cleanWaiters_eq_of_lookup {K : Type} [DecidableEq K] (k : K)
    (s : PoolInner K) (q : List Sender) (h : lookupA k s.waiters = some q) :
    cleanWaiters k s =
      (if (q.filter (fun tx => !tx.closed)).isEmpty
       then { s with waiters := eraseKey k s.waiters }
       else { s with waiters := setA k (q.filter (fun tx => !tx.closed)) s.waiters }) := by
  simp [cleanWaiters, h]

/-- C7: dropping a pending Checkout removes its waiter.  After the drop,
the queue of the key no longer contains the dropped sender and holds no
closed sender at all; when the queue becomes empty the key is removed from
the waiters map; other keys are untouched. -/
theorem c7_drop_checkout_cleans_waiters {K : Type} [DecidableEq K]
    (k : K) (sid : Nat) (s : PoolInner K) (q0 : List Sender)
    (hq : lookupA k s.waiters = some q0)
    (hreg : ∃ tx ∈ q0, tx.sid = sid) :
    (∀ q, lookupA k (dropCheckout k sid s).waiters = some q →
      q ≠ [] ∧ ∀ tx ∈ q, tx.sid ≠ sid ∧ tx.closed = false) ∧
    (∀ j, j ≠ k → lookupA j (dropCheckout k sid s).waiters = lookupA j s.waiters) := by
  clear hreg
  have hmc : markClosed k sid s.waiters
      = setA k (q0.map (fun tx => if tx.sid = sid then ⟨tx.sid, true⟩ else tx))
          s.waiters := by
    simp [markClosed, hq]
  set f : Sender → Sender :=
    fun tx => if tx.sid = sid then (⟨tx.sid, true⟩ : Sender) else tx with hf
  set qm := q0.map f with hqm
  set s1 : PoolInner K := { s with waiters := markClosed k sid s.waiters } with hs1
  have h1 : lookupA k s1.waiters = some qm := by
    show lookupA k (markClosed k sid s.waiters) = some qm
    rw [hmc, lookupA_setA_self, hq]
    rfl
  have hdc : dropCheckout k sid s = cleanWaiters k s1 := rfl
  have hclean := cleanWaiters_eq_of_lookup k s1 qm h1
  have hmem : ∀ tx ∈ qm.filter (fun tx => !tx.closed),
      tx.sid ≠ sid ∧ tx.closed = false := by
    intro tx htx
    rcases List.mem_filter.mp htx with ⟨hin, hcl⟩
    rcases List.mem_map.mp hin with ⟨u, _, hu⟩
    by_cases hus : u.sid = sid
    · rw [hf] at hu
      simp only [if_pos hus] at hu
      rw [← hu] at hcl
      simp at hcl
    · rw [hf] at hu
      simp only [if_neg hus] at hu
      rw [← hu]
      refine ⟨hus, ?_⟩
      rw [← hu] at hcl
      simpa using hcl
  rw [hdc, hclean]
  by_cases hemp : (qm.filter (fun tx => !tx.closed)).isEmpty
  · rw [if_pos hemp]
    constructor
    · intro q hqq
      rw [show ({ s1 with waiters := eraseKey k s1.waiters } : PoolInner K).waiters
          = eraseKey k s1.waiters from rfl, lookupA_eraseKey_self] at hqq
      exact absurd hqq (by simp)
    · intro j hj
      rw [show ({ s1 with waiters := eraseKey k s1.waiters } : PoolInner K).waiters
          = eraseKey k s1.waiters from rfl, lookupA_eraseKey_ne j k _ hj]
      show lookupA j (markClosed k sid s.waiters) = lookupA j s.waiters
      rw [hmc, lookupA_setA_ne j k _ _ hj]
  · rw [if_neg hemp]
    constructor
    · intro q hqq
      rw [show ({ s1 with waiters := setA k (qm.filter (fun tx => !tx.closed)) s1.waiters }
          : PoolInner K).waiters = setA k (qm.filter (fun tx => !tx.closed)) s1.waiters
          from rfl, lookupA_setA_self, h1] at hqq
      have hqeq : q = qm.filter (fun tx => !tx.closed) := by
        simpa using hqq.symm
      subst hqeq
      refine ⟨?_, hmem⟩
      intro hnil
      rw [hnil] at hemp
      simp at hemp
    · intro j hj
      rw [show ({ s1 with waiters := setA k (qm.filter (fun tx => !tx.closed)) s1.waiters }
          : PoolInner K).waiters = setA k (qm.filter (fun tx => !tx.closed)) s1.waiters
          from rfl, lookupA_setA_ne j k _ _ hj]
      show lookupA j (markClosed k sid s.waiters) = lookupA j s.waiters
      rw [hmc, lookupA_setA_ne j k _ _ hj]

/-- A concrete pool state with two parked waiters for key 1. -/
def s7 : PoolInner Nat :=
  { connecting := []
    idle := []
    idleLimit := 8
    max_idle_per_host := 4
    waiters := [(1, [⟨10, false⟩, ⟨11, false⟩]), (2, [⟨12, false⟩])]
    timeout := none }

/-- Witness for C7: dropping the waiter 10 of key 1 leaves a queue without
it and does not touch key 2. -/
theorem c7_witness :
    (([(⟨11, false⟩ : Sender)] : List Sender) ≠ [] ∧
      ∀ tx ∈ ([(⟨11, false⟩ : Sender)] : List Sender),
        tx.sid ≠ 10 ∧ tx.closed = false) ∧
    lookupA 2 (dropCheckout 1 10 s7).waiters = lookupA 2 s7.waiters := by
  have h := c7_drop_checkout_cleans_waiters 1 10 s7 [⟨10, false⟩, ⟨11, false⟩]
    (by decide) ⟨⟨10, false⟩, by decide, rfl⟩
  exact ⟨h.1 [⟨11, false⟩] (by decide), h.2 2 (by decide)⟩

/-! ## Claim C9 -/

/-- C9: DNS override short-circuit.  A name present in the overrides map
resolves to an immediately-ready future with exactly the configured
address list, independently of the underlying resolver (it is never
consulted); any other name is delegated unchanged to the underlying
resolver. -/
theorem c9_dns_override {A : Type} (ov : List (String × List A))
    (underlying : String → Resolving A) (name : String) :
    (∀ dest, lookupA name ov = some dest →
      resolveWithOverrides ov underlying name = Resolving.readyNow dest ∧
      ∀ u2 : String → Resolving A,
        resolveWithOverrides ov u2 name = Resolving.readyNow dest) ∧
    (lookupA name ov = none →
      resolveWithOverrides ov underlying name = underlying name) := by
  constructor
  · intro dest h
    exact ⟨by simp [resolveWithOverrides, h], fun u2 => by simp [resolveWithOverrides, h]⟩
  · intro h
    simp [resolveWithOverrides, h]

/-- A concrete overrides map. -/
def ov9 : List (String × List Nat) := [("api.example", [7, 8])]

/-- A concrete underlying resolver. -/
def u9 : String → Resolving Nat := fun _ => Resolving.fut 0

/-- Witness for C9: the overridden name yields the configured list no
matter the underlying resolver; another name is delegated. -/
theorem c9_witness :
    resolveWithOverrides ov9 u9 "api.example" = Resolving.readyNow [7, 8] ∧
    resolveWithOverrides ov9 (fun _ => Resolving.fut 1) "api.example" =
      Resolving.readyNow [7, 8] ∧
    resolveWithOverrides ov9 u9 "other.example" = u9 "other.example" := by
  have h1 := (c9_dns_override ov9 u9 "api.example").1 [7, 8] (by decide)
  have h2 := (c9_dns_override ov9 u9 "other.example").2 (by decide)
  exact ⟨h1.1, h1.2 _, h2⟩

end Rquest

namespace Rquest

/-! ## Claim C3 -/

theorem dropWhile_head_false {α : Type} (p : α → Bool) (l : List α) (e : α)
    (rest : List α) (h : l.dropWhile p = e :: rest) : p e = false := by
  induction l with
  | nil => simp at h
  | cons a as ih =>
    rw [List.dropWhile_cons] at h
    by_cases hp : p a = true
    · rw [if_pos hp] at h
      exact ih h
    · rw [if_neg hp] at h
      injection h with h1 h2
      rw [← h1]
      exact Bool.eq_false_iff.mpr hp

theorem idlePopAux_eq (now : Nat) (tmo : Option Nat) (l : List IdleC) :
    idlePopAux now tmo l =
      (match l.dropWhile (fun e => !e.value.isOpen || expires now tmo e.idle_at) with
       | [] => none
       | e :: rest =>
         if e.value.canShare
         then some (⟨e.idle_at, e.value⟩, ⟨now, e.value⟩ :: rest)
         else some (e, rest)) := by
  induction l with
  | nil => rfl
  | cons e rest ih =>
    rw [List.dropWhile_cons]
    by_cases h1 : e.value.isOpen = true
    · by_cases h2 : expires now tmo e.idle_at = true
      · simp only [idlePopAux, h1, h2, Bool.not_true, Bool.false_or, if_true]
        simpa using ih
      · have h2f : expires now tmo e.idle_at = false := Bool.eq_false_iff.mpr h2
        simp [idlePopAux, h1, h2f]
    · have h1f : e.value.isOpen = false := Bool.eq_false_iff.mpr h1
      simp only [idlePopAux, h1f, Bool.not_false, Bool.true_or, if_true]
      simpa using ih

/-- The returned survivor of idlePop is open and unexpired. -/
theorem idlePop_survivor (now : Nat) (tmo : Option Nat) (l : List IdleC)
    (e : IdleC) (l2 : List IdleC) (h : idlePop now tmo l = some (e, l2)) :
    e.value.isOpen = true ∧ expires now tmo e.idle_at = false := by
  unfold idlePop at h
  rw [idlePopAux_eq] at h
  cases hdw : l.reverse.dropWhile
      (fun e => !e.value.isOpen || expires now tmo e.idle_at) with
  | nil =>
    rw [hdw] at h
    simp at h
  | cons e0 rest =>
    rw [hdw] at h
    have hbad := dropWhile_head_false _ _ _ _ hdw
    have hopen : e0.value.isOpen = true := by
      rcases Bool.or_eq_false_iff.mp hbad with ⟨hno, _⟩
      simpa using hno
    have hexp : expires now tmo e0.idle_at = false :=
      (Bool.or_eq_false_iff.mp hbad).2
    by_cases hsh : e0.value.canShare = true
    · simp only [hsh, if_true, Option.map_some] at h
      have he : e = ⟨e0.idle_at, e0.value⟩ := by
        have := congrArg Prod.fst (Option.some.inj h)
        exact this.symm
      rw [he]
      exact ⟨hopen, hexp⟩
    · simp only [Bool.eq_false_iff.mpr hsh, if_false, Option.map_some] at h
      have he : e = e0 := by
        have := congrArg Prod.fst (Option.some.inj h)
        exact this.symm
      rw [he]
      exact ⟨hopen, hexp⟩

/-- C3: one poll of checkout scans the idle list of the key from the back,
discards closed and expired entries, and pops the first survivor; a
sharable survivor is handed out with a retained copy, stamped with the
current instant, pushed to the back of the list; and no entry is returned
at or after idle_at + idle_timeout + 1 - at the pool level, a successful
checkoutPoll at instant now with timeout T only ever returns an entry with
now ≤ idle_at + T. -/
theorem c3_checkout_idle_scan {K : Type} [DecidableEq K] (now : Nat)
    (tmo : Option Nat) (l : List IdleC) (s : PoolInner K) (k : K) (sid : Nat)
    (hw : Bool) :
    (l.reverse.dropWhile (fun e => !e.value.isOpen || expires now tmo e.idle_at)
        = [] → idlePop now tmo l = none) ∧
    (∀ e rest,
      l.reverse.dropWhile (fun e => !e.value.isOpen || expires now tmo e.idle_at)
          = e :: rest →
      idlePop now tmo l =
        (if e.value.canShare
         then some (⟨e.idle_at, e.value⟩, rest.reverse ++ [⟨now, e.value⟩])
         else some (e, rest.reverse))) ∧
    (∀ e l2, idlePop now tmo l = some (e, l2) →
      e.value.isOpen = true ∧ expires now tmo e.idle_at = false) ∧
    (∀ T e l2, idlePop now (some T) l = some (e, l2) → now ≤ e.idle_at + T) ∧
    (∀ T e s2, s.timeout = some T → checkoutPoll now k sid hw s = (some e, s2) →
      now ≤ e.idle_at + T) := by
  refine ⟨?_, ?_, idlePop_survivor now tmo l, ?_, ?_⟩
  · intro hdw
    unfold idlePop
    rw [idlePopAux_eq, hdw]
    rfl
  · intro e rest hdw
    unfold idlePop
    rw [idlePopAux_eq, hdw]
    by_cases hsh : e.value.canShare = true
    · simp [hsh, List.reverse_cons]
    · simp [Bool.eq_false_iff.mpr hsh]
  · intro T e l2 h
    have hexp := (idlePop_survivor now (some T) l e l2 h).2
    simp only [expires, decide_eq_false_iff_not, not_lt] at hexp
    omega
  · intro T e s2 ht hcp
    simp only [checkoutPoll] at hcp
    cases hg : lruGet k s.idle with
    | mk lst idle1 =>
      rw [hg] at hcp
      cases lst with
      | none =>
        dsimp only at hcp
        split at hcp <;> simp at hcp
      | some l0 =>
        simp only at hcp
        cases hpop : idlePop now s.timeout l0 with
        | none =>
          rw [hpop] at hcp
          cases hhw : hw
          · rw [hhw] at hcp
            simp at hcp
          · rw [hhw] at hcp
            simp at hcp
        | some pr =>
          rw [hpop] at hcp
          simp only at hcp
          have he : pr.1 = e := by
            have := congrArg Prod.fst hcp
            simpa using this
          have hexp := (idlePop_survivor now s.timeout l0 pr.1 pr.2
            (by rw [← hpop])).2
          rw [he, ht] at hexp
          simp only [expires, decide_eq_false_iff_not, not_lt] at hexp
          omega

end Rquest

namespace Rquest

/-- A concrete idle list: back-to-front scan passes a closed entry and an
expired entry before finding the open unexpired survivor. -/
def l3w : List IdleC :=
  [⟨95, ⟨1, true, false⟩⟩, ⟨50, ⟨2, true, false⟩⟩, ⟨99, ⟨3, false, false⟩⟩]

/-- A concrete pool state holding l3w for key 1 with idle_timeout 10. -/
def s3w : PoolInner Nat :=
  { connecting := []
    idle := [(1, l3w)]
    idleLimit := 8
    max_idle_per_host := 4
    waiters := []
    timeout := some 10 }

/-- Witness for C3 at a concrete list and pool state. -/
theorem c3_witness :
    idlePop 100 (some 10) l3w = some (⟨95, ⟨1, true, false⟩⟩, []) ∧
    checkoutPoll 100 1 55 false s3w =
      (some ⟨95, ⟨1, true, false⟩⟩, { s3w with idle := [] }) ∧
    (100 : Nat) ≤ 95 + 10 := by
  have h := c3_checkout_idle_scan (K := Nat) 100 (some 10) l3w s3w 1 55 false
  refine ⟨?_, by decide, ?_⟩
  · have h2 := h.2.1 ⟨95, ⟨1, true, false⟩⟩ [] (by decide)
    simpa using h2
  · exact h.2.2.2.2 10 ⟨95, ⟨1, true, false⟩⟩ { s3w with idle := [] } rfl (by decide)

/-! ## Lemmas on put -/

theorem lookupA_take {K V : Type} [DecidableEq K] (j : K) (n : Nat)
    (l : List (K × V)) :
    lookupA j (l.take n) = none ∨ lookupA j (l.take n) = lookupA j l := by
  induction l generalizing n with
  | nil => left; cases n <;> rfl
  | cons p rest ih =>
    cases n with
    | zero => left; rfl
    | succ m =>
      rw [List.take_succ_cons, lookupA_cons, lookupA_cons]
      by_cases h : p.1 = j
      · right; rw [if_pos h, if_pos h]
      · rw [if_neg h, if_neg h]
        exact ih m

theorem lruPeek_getOrInsert_self {K V : Type} [DecidableEq K] (limit : Nat)
    (k : K) (d : V) (m : List (K × V)) (hlim : 0 < limit) :
    lruPeek k (lruGetOrInsert limit k d m) = some ((lookupA k m).getD d) := by
  unfold lruPeek lruGetOrInsert
  cases h : lookupA k m with
  | some v =>
    rw [lookupA_cons]
    simp
  | none =>
    simp only []
    by_cases hl : ((k, d) :: m).length > limit
    · rw [if_pos hl]
      cases limit with
      | zero => omega
      | succ t =>
        rw [List.take_succ_cons, lookupA_cons]
        simp
    · rw [if_neg hl, lookupA_cons]
      simp

theorem lruPeek_getOrInsert_ne {K V : Type} [DecidableEq K] (limit : Nat)
    (j k : K) (d : V) (m : List (K × V)) (hjk : j ≠ k) :
    lruPeek j (lruGetOrInsert limit k d m) = none ∨
    lruPeek j (lruGetOrInsert limit k d m) = lookupA j m := by
  unfold lruPeek lruGetOrInsert
  cases h : lookupA k m with
  | some v =>
    right
    rw [lookupA_cons]
    have : ¬ ((k, v) : K × V).1 = j := fun hh => hjk hh.symm
    rw [if_neg this]
    exact lookupA_eraseKey_ne j k m hjk
  | none =>
    simp only []
    by_cases hl : ((k, d) :: m).length > limit
    · rw [if_pos hl]
      rcases lookupA_take j limit ((k, d) :: m) with h2 | h2
      · left; exact h2
      · right
        rw [h2, lookupA_cons]
        have : ¬ ((k, d) : K × V).1 = j := fun hh => hjk hh.symm
        rw [if_neg this]
    · right
      rw [if_neg hl, lookupA_cons]
      have : ¬ ((k, d) : K × V).1 = j := fun hh => hjk hh.symm
      rw [if_neg this]

/-- put for a non-sharable value when no waiter queue exists for the key:
the value goes to the idle list, subject to the per-host cap. -/
theorem put_step {K : Type} [DecidableEq K] (now : Nat) (k : K) (v : Conn)
    (s : PoolInner K) (hv : v.canShare = false)
    (hw : lookupA k s.waiters = none) :
    put now k v s =
      (let idle2 := lruGetOrInsert s.idleLimit k ([] : List IdleC) s.idle
       let cur := (lruPeek k idle2).getD []
       if s.max_idle_per_host ≤ cur.length then
         ({ s with idle := idle2 }, [])
       else
         ({ s with idle := setA k (cur ++ [⟨now, v⟩]) idle2 }, [])) := by
  simp only [put, hv, hw, Bool.false_and, Bool.false_eq_true, if_false]

/-- The waiter loop for a non-sharable value: closed senders are skipped
from the front, the first open sender receives the value and the loop
stops. -/
theorem fulfil_unique_eq (v : Conn) (hv : v.canShare = false)
    (q : List Sender) :
    fulfil v q =
      (match q.dropWhile (fun tx => tx.closed) with
       | [] => (some v, [], [])
       | tx :: rest => (none, rest, [tx.sid])) := by
  induction q with
  | nil => rfl
  | cons tx rest ih =>
    rw [List.dropWhile_cons]
    by_cases h : tx.closed = true
    · simp only [fulfil, h, if_true]
      exact ih
    · have hf : tx.closed = false := Bool.eq_false_iff.mpr h
      simp [fulfil, hf, hv]

/-- put for a non-sharable value when the queue's front sender is open:
the front sender receives the value and is removed; nothing reaches the
idle list. -/
theorem put_fulfil_unique {K : Type} [DecidableEq K] (now : Nat) (k : K)
    (v : Conn) (s : PoolInner K) (tx : Sender) (qt : List Sender)
    (hv : v.canShare = false) (hq : lookupA k s.waiters = some (tx :: qt))
    (htx : tx.closed = false) :
    put now k v s =
      ({ s with waiters := if qt.isEmpty then eraseKey k s.waiters
                           else setA k qt s.waiters }, [tx.sid]) := by
  simp only [put, hv, hq, Bool.false_and, Bool.false_eq_true, if_false,
    fulfil, htx]

theorem lookupA_appendWaiter_self {K : Type} [DecidableEq K] (k : K) (sid : Nat)
    (w : List (K × List Sender)) :
    lookupA k (appendWaiter k sid w)
      = some ((lookupA k w).getD [] ++ [⟨sid, false⟩]) := by
  unfold appendWaiter
  cases h : lookupA k w with
  | some q =>
    rw [lookupA_setA_self, h]
    rfl
  | none =>
    rw [lookupA_cons]
    simp

theorem putSeq_acc {K : Type} [DecidableEq K] (now : Nat) (k : K)
    (vs : List Conn) (s : PoolInner K) (a : List Nat) :
    vs.foldl (fun acc v =>
      let r := put now k v acc.1
      (r.1, acc.2 ++ r.2)) (s, a)
      = ((putSeq now k vs s).1, a ++ (putSeq now k vs s).2) := by
  induction vs generalizing s a with
  | nil => simp [putSeq]
  | cons v vs ih =>
    simp only [putSeq, List.foldl_cons]
    rw [ih, ih]
    simp

theorem putSeq_cons {K : Type} [DecidableEq K] (now : Nat) (k : K) (v : Conn)
    (vs : List Conn) (s : PoolInner K) :
    putSeq now k (v :: vs) s
      = ((putSeq now k vs (put now k v s).1).1,
         (put now k v s).2 ++ (putSeq now k vs (put now k v s).1).2) := by
  simp only [putSeq, List.foldl_cons]
  rw [putSeq_acc]
  simp [putSeq]

end Rquest

namespace Rquest

theorem fulfil_left (v : Conn) (q : List Sender) :
    (fulfil v q).1 = none ∨ (fulfil v q).1 = some v := by
  induction q with
  | nil => right; rfl
  | cons tx rest ih =>
    by_cases h : tx.closed = true
    · simpa [fulfil, h] using ih
    · have hf : tx.closed = false := Bool.eq_false_iff.mpr h
      by_cases hs : v.canShare = true
      · simpa [fulfil, hf, hs] using ih
      · simp [fulfil, hf, Bool.eq_false_iff.mpr hs]

/-- put unfolded when no waiter queue exists for the key. -/
theorem put_step_nowaiters {K : Type} [DecidableEq K] (now : Nat) (k : K)
    (v : Conn) (s : PoolInner K)
    (hdup : (v.canShare && (lruPeek k s.idle).isSome) = false)
    (hw : lookupA k s.waiters = none) :
    put now k v s =
      (let idle2 := lruGetOrInsert s.idleLimit k ([] : List IdleC) s.idle
       let cur := (lruPeek k idle2).getD []
       if s.max_idle_per_host ≤ cur.length then
         ({ s with idle := idle2 }, [])
       else
         ({ s with idle := setA k (cur ++ [⟨now, v⟩]) idle2 }, [])) := by
  simp only [put, hdup, Bool.false_eq_true, if_false, hw]

/-- put unfolded when a waiter queue exists for the key. -/
theorem put_step_waiters {K : Type} [DecidableEq K] (now : Nat) (k : K)
    (v : Conn) (s : PoolInner K) (q : List Sender)
    (hdup : (v.canShare && (lruPeek k s.idle).isSome) = false)
    (hq : lookupA k s.waiters = some q) :
    put now k v s =
      (let r := fulfil v q
       let w2 := if r.2.1.isEmpty then eraseKey k s.waiters
                 else setA k r.2.1 s.waiters
       match r.1 with
       | none => ({ s with waiters := w2 }, r.2.2)
       | some v2 =>
         let idle2 := lruGetOrInsert s.idleLimit k ([] : List IdleC) s.idle
         let cur := (lruPeek k idle2).getD []
         if s.max_idle_per_host ≤ cur.length then
           ({ s with idle := idle2, waiters := w2 }, r.2.2)
         else
           ({ s with idle := setA k (cur ++ [⟨now, v2⟩]) idle2, waiters := w2 },
             r.2.2)) := by
  simp only [put, hdup, Bool.false_eq_true, if_false, hq]

/-- The idle component of a put falls in one of three shapes: untouched;
promoted-only with the new value dropped at the cap; or promoted with the
new value pushed at the back below the cap. -/
theorem put_idle_shape {K : Type} [DecidableEq K] (now : Nat) (k : K)
    (v : Conn) (s : PoolInner K) :
    (put now k v s).1.idle = s.idle ∨
    (s.max_idle_per_host ≤
        ((lruPeek k (lruGetOrInsert s.idleLimit k ([] : List IdleC) s.idle)).getD
          []).length ∧
      (put now k v s).1.idle = lruGetOrInsert s.idleLimit k ([] : List IdleC) s.idle) ∨
    (((lruPeek k (lruGetOrInsert s.idleLimit k ([] : List IdleC) s.idle)).getD
          []).length < s.max_idle_per_host ∧
      (put now k v s).1.idle =
        setA k (((lruPeek k (lruGetOrInsert s.idleLimit k ([] : List IdleC)
            s.idle)).getD []) ++ [⟨now, v⟩])
          (lruGetOrInsert s.idleLimit k ([] : List IdleC) s.idle)) := by
  by_cases hdup : (v.canShare && (lruPeek k s.idle).isSome) = true
  · left
    simp [put, hdup]
  · have hdupf : (v.canShare && (lruPeek k s.idle).isSome) = false :=
      Bool.eq_false_iff.mpr hdup
    cases hlw : lookupA k s.waiters with
    | none =>
      rw [put_step_nowaiters now k v s hdupf hlw]
      by_cases hc : s.max_idle_per_host ≤
          ((lruPeek k (lruGetOrInsert s.idleLimit k ([] : List IdleC)
            s.idle)).getD []).length
      · right; left
        refine ⟨hc, ?_⟩
        simp only [if_pos hc]
      · right; right
        refine ⟨Nat.lt_of_not_le hc, ?_⟩
        simp only [if_neg hc]
    | some q =>
      rw [put_step_waiters now k v s q hdupf hlw]
      rcases fulfil_left v q with hl | hl
      · left
        simp only [hl]
      · by_cases hc : s.max_idle_per_host ≤
            ((lruPeek k (lruGetOrInsert s.idleLimit k ([] : List IdleC)
              s.idle)).getD []).length
        · right; left
          refine ⟨hc, ?_⟩
          simp only [hl, if_pos hc]
        · right; right
          refine ⟨Nat.lt_of_not_le hc, ?_⟩
          simp only [hl, if_neg hc]

/-- After a put for a non-sharable value with no waiters, the
configuration fields and the waiters map are unchanged, and the idle list
of the key holds the old entries plus, below the cap, the new one. -/
theorem put_step_fields {K : Type} [DecidableEq K] (now : Nat) (k : K)
    (v : Conn) (s : PoolInner K) (hv : v.canShare = false)
    (hw : lookupA k s.waiters = none) (hlim : 0 < s.idleLimit) :
    (put now k v s).1.waiters = s.waiters ∧
    (put now k v s).1.idleLimit = s.idleLimit ∧
    (put now k v s).1.max_idle_per_host = s.max_idle_per_host ∧
    lruPeek k ((put now k v s).1.idle) =
      some (if s.max_idle_per_host ≤ ((lruPeek k s.idle).getD []).length
            then (lruPeek k s.idle).getD []
            else (lruPeek k s.idle).getD [] ++ [⟨now, v⟩]) := by
  have hdupf : (v.canShare && (lruPeek k s.idle).isSome) = false := by
    simp [hv]
  have hpg : lookupA k (lruGetOrInsert s.idleLimit k ([] : List IdleC) s.idle)
      = some ((lookupA k s.idle).getD []) :=
    lruPeek_getOrInsert_self s.idleLimit k [] s.idle hlim
  rw [put_step_nowaiters now k v s hdupf hw]
  simp only [lruPeek]
  simp only [hpg, Option.getD_some]
  by_cases hc : s.max_idle_per_host ≤
      ((lookupA k s.idle).getD ([] : List IdleC)).length
  · rw [if_pos hc, if_pos hc]
    exact ⟨rfl, rfl, rfl, hpg⟩
  · rw [if_neg hc, if_neg hc]
    refine ⟨rfl, rfl, rfl, ?_⟩
    show lookupA k (setA k ((lookupA k s.idle).getD [] ++ [⟨now, v⟩])
      (lruGetOrInsert s.idleLimit k ([] : List IdleC) s.idle)) = _
    rw [lookupA_setA_self, hpg]
    rfl

/-- Iterated puts of non-sharable values with no waiters: the idle list of
the key grows by one per put until the cap, then stays. -/
theorem putSeq_count {K : Type} [DecidableEq K] (now : Nat) (k : K)
    (vs : List Conn) :
    ∀ (s : PoolInner K) (c : Nat), 0 < s.idleLimit →
    (∀ u ∈ vs, u.canShare = false) →
    lookupA k s.waiters = none →
    ((lruPeek k s.idle).getD []).length = c →
    c ≤ s.max_idle_per_host →
    ((lruPeek k ((putSeq now k vs s).1.idle)).getD []).length
      = min (c + vs.length) s.max_idle_per_host := by
  induction vs with
  | nil =>
    intro s c hlim hvs hw hc hcm
    simp only [putSeq, List.foldl_nil, List.length_nil]
    rw [hc]
    omega
  | cons v vs ih =>
    intro s c hlim hvs hw hc hcm
    rw [putSeq_cons]
    have hfields := put_step_fields now k v s (hvs v (List.mem_cons_self v vs))
      hw hlim
    rcases hfields with ⟨hwat, hlim2, hmax2, hpk⟩
    by_cases hfull : s.max_idle_per_host ≤ ((lruPeek k s.idle).getD []).length
    · have hceq : c = s.max_idle_per_host := by omega
      have := ih (put now k v s).1 c (by rw [hlim2]; exact hlim)
        (fun u hu => hvs u (List.mem_cons_of_mem v hu))
        (by rw [hwat]; exact hw)
        (by rw [hpk, Option.getD_some, if_pos hfull, hc])
        (by rw [hmax2]; exact hcm)
      rw [this, hmax2]
      simp only [List.length_cons]
      omega
    · have := ih (put now k v s).1 (c + 1) (by rw [hlim2]; exact hlim)
        (fun u hu => hvs u (List.mem_cons_of_mem v hu))
        (by rw [hwat]; exact hw)
        (by rw [hpk, Option.getD_some, if_neg hfull]
            simp [hc])
        (by rw [hmax2]; omega)
      rw [this, hmax2]
      have : ¬ s.max_idle_per_host ≤ c := by rw [← hc]; exact hfull
      simp only [List.length_cons]
      omega

end Rquest

namespace Rquest

/-! ## Claim C4 -/

/-- C4: per-host idle cap with tail-drop.  When a value survives the
waiter stage and the key's idle list already holds max_idle_per_host
entries, the value is dropped and the key's idle list is unchanged; a put
never pushes the length of any idle list beyond max_idle_per_host; and M
insertions of non-sharable values into an empty pool slot leave exactly
min M max_idle_per_host entries. -/
theorem c4_put_idle_cap {K : Type} [DecidableEq K] (now : Nat) (k : K)
    (v : Conn) (s : PoolInner K) (hlim : 0 < s.idleLimit) :
    (0 < s.max_idle_per_host →
     s.max_idle_per_host ≤ ((lruPeek k s.idle).getD []).length →
     (fulfil v ((lookupA k s.waiters).getD [])).1.isSome = true →
     lruPeek k ((put now k v s).1.idle) = lruPeek k s.idle) ∧
    ((∀ j : K, ((lruPeek j s.idle).getD []).length ≤ s.max_idle_per_host) →
     ∀ j : K, ((lruPeek j ((put now k v s).1.idle)).getD []).length
       ≤ s.max_idle_per_host) ∧
    (∀ vs : List Conn, (∀ u ∈ vs, u.canShare = false) →
     lookupA k s.waiters = none → lruPeek k s.idle = none →
     ((lruPeek k ((putSeq now k vs s).1.idle)).getD []).length
       = min vs.length s.max_idle_per_host) := by
  have hpg := lruPeek_getOrInsert_self s.idleLimit k ([] : List IdleC) s.idle hlim
  refine ⟨?_, ?_, ?_⟩
  · intro hmax hlen hful
    clear hful
    rcases put_idle_shape now k v s with h | ⟨hcond, h⟩ | ⟨hcond, h⟩
    · rw [h]
    · rw [h]
      cases hpk : lruPeek k s.idle with
      | none =>
        exfalso
        rw [hpk] at hlen
        simp at hlen
        omega
      | some old =>
        rw [hpg, show lookupA k s.idle = lruPeek k s.idle from rfl, hpk]
        rfl
    · exfalso
      rw [hpg] at hcond
      simp only [Option.getD_some] at hcond
      rw [show lookupA k s.idle = lruPeek k s.idle from rfl] at hcond
      omega
  · intro hall j
    rcases put_idle_shape now k v s with h | ⟨hcond, h⟩ | ⟨hcond, h⟩
    · rw [h]; exact hall j
    · rw [h]
      by_cases hjk : j = k
      · subst hjk
        rw [show lruPeek j (lruGetOrInsert s.idleLimit j ([] : List IdleC)
          s.idle) = some ((lookupA j s.idle).getD []) from hpg, Option.getD_some]
        exact hall j
      · rcases lruPeek_getOrInsert_ne s.idleLimit j k ([] : List IdleC)
          s.idle hjk with h2 | h2
        · rw [h2]; exact Nat.zero_le _
        · rw [h2]; exact hall j
    · rw [h]
      rw [hpg] at hcond
      simp only [Option.getD_some] at hcond
      by_cases hjk : j = k
      · subst hjk
        show ((lookupA j (setA j _ _)).getD []).length ≤ _
        rw [lookupA_setA_self,
          show lookupA j (lruGetOrInsert s.idleLimit j ([] : List IdleC)
            s.idle) = some ((lookupA j s.idle).getD []) from hpg]
        simp only [Option.map_some', Option.getD_some, List.length_append,
          List.length_cons, List.length_nil]
        rw [show lruPeek j (lruGetOrInsert s.idleLimit j ([] : List IdleC)
          s.idle) = some ((lookupA j s.idle).getD []) from hpg, Option.getD_some]
        omega
      · show ((lookupA j (setA k _ _)).getD []).length ≤ _
        rw [lookupA_setA_ne j k _ _ hjk]
        rcases lruPeek_getOrInsert_ne s.idleLimit j k ([] : List IdleC)
          s.idle hjk with h2 | h2
        · rw [show lookupA j (lruGetOrInsert s.idleLimit k ([] : List IdleC)
            s.idle) = none from h2]
          simp
        · rw [show lookupA j (lruGetOrInsert s.idleLimit k ([] : List IdleC)
            s.idle) = lookupA j s.idle from h2]
          exact hall j
  · intro vs hvs hw hp
    have h := putSeq_count now k vs s 0 hlim hvs hw
      (by rw [hp]; rfl) (Nat.zero_le _)
    rw [h]
    simp

end Rquest

namespace Rquest

/-- A concrete pool state at its per-host cap for key 1. -/
def s4w : PoolInner Nat :=
  { connecting := []
    idle := [(1, [⟨0, ⟨1, true, false⟩⟩, ⟨1, ⟨2, true, false⟩⟩])]
    idleLimit := 8
    max_idle_per_host := 2
    waiters := []
    timeout := none }

/-- A concrete empty pool state with per-host cap 2. -/
def s4e : PoolInner Nat :=
  { connecting := []
    idle := []
    idleLimit := 8
    max_idle_per_host := 2
    waiters := []
    timeout := none }

/-- Witness for C4: a put at the cap leaves the key's idle list unchanged;
three insertions with cap 2 leave exactly two entries. -/
theorem c4_witness :
    lruPeek 1 ((put 7 1 ⟨9, true, false⟩ s4w).1.idle) = lruPeek 1 s4w.idle ∧
    ((lruPeek 1 ((putSeq 7 1
      [⟨3, true, false⟩, ⟨4, true, false⟩, ⟨5, true, false⟩] s4e).1.idle)).getD
        []).length = min 3 2 := by
  have h := c4_put_idle_cap (K := Nat) 7 1 ⟨9, true, false⟩ s4w (by decide)
  have h2 := c4_put_idle_cap (K := Nat) 7 1 ⟨9, true, false⟩ s4e (by decide)
  refine ⟨h.1 (by decide) (by decide) (by decide), ?_⟩
  have h3 := h2.2.2 [⟨3, true, false⟩, ⟨4, true, false⟩, ⟨5, true, false⟩]
    (by decide) (by decide) (by decide)
  simpa using h3

end Rquest

namespace Rquest

/-- A put of a non-sharable value with no waiter queue delivers nothing
and leaves the waiters map unchanged. -/
theorem put_no_waiters_state {K : Type} [DecidableEq K] (now : Nat) (k : K)
    (v : Conn) (s : PoolInner K) (hv : v.canShare = false)
    (hw : lookupA k s.waiters = none) :
    (put now k v s).1.waiters = s.waiters ∧ (put now k v s).2 = [] := by
  rw [put_step now k v s hv hw]
  constructor
  · show (if _ then _ else _ : PoolInner K × List Nat).1.waiters = s.waiters
    split <;> rfl
  · show (if _ then _ else _ : PoolInner K × List Nat).2 = []
    split <;> rfl

/-- FIFO delivery over a sequence of puts of non-sharable values: when the
key's queue holds only open senders, the puts deliver to them front to
back in order. -/
theorem putSeq_fifo_aux {K : Type} [DecidableEq K] (now : Nat) (k : K)
    (vs : List Conn) :
    ∀ (s : PoolInner K) (q : List Sender),
    (∀ u ∈ vs, u.canShare = false) →
    (∀ tx ∈ q, tx.closed = false) →
    ((q ≠ [] ∧ lookupA k s.waiters = some q) ∨
     (q = [] ∧ lookupA k s.waiters = none)) →
    (putSeq now k vs s).2 = (q.map Sender.sid).take vs.length := by
  induction vs with
  | nil =>
    intro s q hvs hopen hq
    simp [putSeq]
  | cons v vs ih =>
    intro s q hvs hopen hq
    rw [putSeq_cons]
    rcases hq with ⟨hne, hl⟩ | ⟨hqe, hl⟩
    · cases q with
      | nil => exact absurd rfl hne
      | cons tx qt =>
        have htx : tx.closed = false := hopen tx (List.mem_cons_self tx qt)
        have hput := put_fulfil_unique now k v s tx qt
          (hvs v (List.mem_cons_self v vs)) hl htx
        have hrec := ih (put now k v s).1 qt
          (fun u hu => hvs u (List.mem_cons_of_mem v hu))
          (fun tx2 h2 => hopen tx2 (List.mem_cons_of_mem tx h2))
          (by
            cases qt with
            | nil =>
              right
              refine ⟨rfl, ?_⟩
              rw [hput]
              exact lookupA_eraseKey_self k s.waiters
            | cons t2 qt2 =>
              left
              refine ⟨by simp, ?_⟩
              rw [hput]
              show lookupA k
                (if (t2 :: qt2).isEmpty then eraseKey k s.waiters
                 else setA k (t2 :: qt2) s.waiters) = some (t2 :: qt2)
              rw [if_neg (by simp)]
              rw [lookupA_setA_self, hl]
              rfl)
        rw [hrec, hput]
        simp
    · subst hqe
      have hns := put_no_waiters_state now k v s
        (hvs v (List.mem_cons_self v vs)) hl
      have hrec := ih (put now k v s).1 []
        (fun u hu => hvs u (List.mem_cons_of_mem v hu))
        (fun tx2 h2 => absurd h2 (List.not_mem_nil tx2))
        (Or.inr ⟨rfl, by rw [hns.1]; exact hl⟩)
      rw [hrec, hns.2]
      simp

/-- C2: waiter FIFO.  A poll of checkout that finds no idle entry appends
its sender to the back of the key's queue; put pops senders from the
front, skipping exactly the senders whose receiver was dropped; and a
sequence of M puts of non-sharable values delivers to the first M open
waiters in enqueue order. -/
theorem c2_waiter_fifo {K : Type} [DecidableEq K] (now : Nat) (k : K)
    (newSid : Nat) (s : PoolInner K) (q : List Sender) (vs : List Conn) :
    (∀ s2, checkoutPoll now k newSid false s = (none, s2) →
      lookupA k s2.waiters
        = some (((lookupA k s.waiters).getD []) ++ [⟨newSid, false⟩])) ∧
    (∀ v : Conn, v.canShare = false →
      fulfil v q =
        (match q.dropWhile (fun tx => tx.closed) with
         | [] => (some v, [], [])
         | tx :: rest => (none, rest, [tx.sid]))) ∧
    ((∀ u ∈ vs, u.canShare = false) → (∀ tx ∈ q, tx.closed = false) →
      lookupA k s.waiters = some q → q ≠ [] →
      (putSeq now k vs s).2 = (q.map Sender.sid).take vs.length) := by
  refine ⟨?_, fun v hv => fulfil_unique_eq v hv q, ?_⟩
  · intro s2 h
    simp only [checkoutPoll] at h
    rcases hg : lruGet k s.idle with ⟨lst, idle1⟩
    rw [hg] at h
    cases lst with
    | none =>
      dsimp only at h
      have hs2 : s2 = { s with
          idle := eraseKey k idle1
          waiters := appendWaiter k newSid s.waiters } := by
        have := congrArg Prod.snd h
        simpa using this.symm
      rw [hs2]
      exact lookupA_appendWaiter_self k newSid s.waiters
    | some l0 =>
      dsimp only at h
      cases hpop : idlePop now s.timeout l0 with
      | none =>
        rw [hpop] at h
        dsimp only at h
        have hs2 : s2 = { s with
            idle := eraseKey k idle1
            waiters := appendWaiter k newSid s.waiters } := by
          have := congrArg Prod.snd h
          simpa using this.symm
        rw [hs2]
        exact lookupA_appendWaiter_self k newSid s.waiters
      | some pr =>
        rw [hpop] at h
        dsimp only at h
        have := congrArg Prod.fst h
        simp at this
  · intro hvs hopen hl hne
    exact putSeq_fifo_aux now k vs s q hvs hopen (Or.inl ⟨hne, hl⟩)

end Rquest

namespace Rquest

/-- A concrete pool state with three open waiters parked for key 1. -/
def s2w : PoolInner Nat :=
  { connecting := []
    idle := []
    idleLimit := 8
    max_idle_per_host := 4
    waiters := [(1, [⟨10, false⟩, ⟨11, false⟩, ⟨12, false⟩])]
    timeout := none }

/-- The state after one poll of a fresh checkout for key 1 on s2w. -/
def s2r : PoolInner Nat :=
  { s2w with
      waiters := [(1, [⟨10, false⟩, ⟨11, false⟩, ⟨12, false⟩, ⟨99, false⟩])] }

/-- Witness for C2: the checkout sender 99 is appended at the back; two
puts deliver to waiters 10 and 11 in enqueue order. -/
theorem c2_witness :
    lookupA 1 s2r.waiters
      = some ([⟨10, false⟩, ⟨11, false⟩, ⟨12, false⟩] ++ [⟨99, false⟩]) ∧
    (putSeq 3 1 [⟨1, true, false⟩, ⟨2, true, false⟩] s2w).2
      = ([10, 11, 12] : List Nat).take 2 := by
  have h := c2_waiter_fifo (K := Nat) 3 1 99 s2w
    [⟨10, false⟩, ⟨11, false⟩, ⟨12, false⟩] [⟨1, true, false⟩, ⟨2, true, false⟩]
  constructor
  · exact h.1 s2r (by decide)
  · exact h.2.2 (by decide) (by decide) (by decide) (by decide)

end Rquest

namespace Rquest

/-! ## Claim C5 -/

theorem eraseKey_length_lt {K V : Type} [DecidableEq K] (k : K) (v : V)
    (m : List (K × V)) (h : lookupA k m = some v) :
    (eraseKey k m).length < m.length := by
  induction m with
  | nil => simp [lookupA] at h
  | cons p rest ih =>
    rw [eraseKey_cons]
    by_cases hp : p.1 = k
    · rw [if_pos hp]
      have : (eraseKey k rest).length ≤ rest.length := List.length_filter_le _ _
      simp only [List.length_cons]
      omega
    · rw [lookupA_cons, if_neg hp] at h
      rw [if_neg hp]
      simp only [List.length_cons]
      exact Nat.succ_lt_succ (ih h)

theorem lruGetOrInsert_keys_fresh {K : Type} [DecidableEq K] (L : Nat) (k : K)
    (d : List IdleC) (m : List (K × List IdleC))
    (hk : lookupA k m = none) :
    (lruGetOrInsert L k d m).map Prod.fst = (k :: m.map Prod.fst).take L := by
  unfold lruGetOrInsert
  rw [hk]
  simp only []
  by_cases h : ((k, d) :: m).length > L
  · rw [if_pos h, List.map_take]
    rfl
  · rw [if_neg h]
    have hlen : (k :: m.map Prod.fst).length ≤ L := by
      simp only [List.length_cons, List.length_map]
      simpa using h
    rw [List.take_all_of_le hlen]
    rfl

theorem take_append_take {α : Type} (L : Nat) (a b : List α) :
    (a ++ b.take L).take L = (a ++ b).take L := by
  rw [List.take_append_eq_append_take, List.take_append_eq_append_take,
    List.take_take]
  congr 1
  simp [List.length_take]

/-- Folding fresh-key insertions into the idle LRU: the surviving keys are
the last limit-many inserted keys, newest first. -/
theorem insertAll_keys {K : Type} [DecidableEq K] (L : Nat) :
    ∀ (ks : List K) (m : List (K × List IdleC)),
    (ks ++ m.map Prod.fst).Nodup →
    (m.map Prod.fst).length ≤ L →
    ((ks.foldl (fun acc k2 => lruGetOrInsert L k2 ([] : List IdleC) acc) m).map
      Prod.fst) = (ks.reverse ++ m.map Prod.fst).take L := by
  intro ks
  induction ks with
  | nil =>
    intro m hnd hlen
    simp only [List.foldl_nil, List.reverse_nil, List.nil_append]
    exact (List.take_all_of_le hlen).symm
  | cons k2 ks ih =>
    intro m hnd hlen
    simp only [List.foldl_cons]
    have hnd2 : (k2 :: (ks ++ m.map Prod.fst)).Nodup := by simpa using hnd
    have hk2 : lookupA k2 m = none := by
      rw [lookupA_none_iff]
      intro hmem
      exact (List.nodup_cons.mp hnd2).1 (List.mem_append_right ks hmem)
    have hstep := lruGetOrInsert_keys_fresh L k2 ([] : List IdleC) m hk2
    have hperm : (k2 :: (ks ++ m.map Prod.fst)).Perm
        (ks ++ k2 :: m.map Prod.fst) := List.perm_middle.symm
    have hndB : (ks ++ k2 :: m.map Prod.fst).Nodup := hperm.nodup_iff.mp hnd2
    have hsub : List.Sublist ((k2 :: m.map Prod.fst).take L)
        (k2 :: m.map Prod.fst) :=
      List.take_sublist L _
    have hrec := ih (lruGetOrInsert L k2 ([] : List IdleC) m)
      (by
        rw [hstep]
        exact ((List.Sublist.append_left hsub ks).nodup hndB :))
      (by
        rw [hstep, List.length_take]
        exact min_le_left _ _)
    rw [hrec, hstep, take_append_take]
    congr 1
    rw [List.reverse_cons, List.append_assoc]
    rfl

/-- The configuration with the pool size limit unset. -/
def cfg0 : Config :=
  { idle_timeout := none
    max_idle_per_host := 1
    max_pool_size := none }

set_option maxRecDepth 4000 in
/-- Counterexample for C5 as stated: with max_pool_size unset, Pool::new
gives the idle LRU the length limit u32::MAX = 2^32 - 1, so inserting
2^32 distinct keys does evict the least-recently-used key 0 for capacity
reasons; the LRU is not unbounded. -/
theorem c5_counterexample :
    ((poolNew Nat cfg0).map (fun s => s.idleLimit)).getD 0 = 2 ^ 32 - 1 ∧
    lookupA 0 ((List.range (2 ^ 32)).foldl
      (fun acc k2 => lruGetOrInsert (2 ^ 32 - 1) k2 ([] : List IdleC) acc) [])
      = none := by
  constructor
  · decide
  · have h := insertAll_keys (K := Nat) (2 ^ 32 - 1) (List.range (2 ^ 32)) []
      (by rw [List.map_nil, List.append_nil]
          exact List.nodup_range (2 ^ 32))
      (by rw [List.map_nil]
          exact Nat.zero_le _)
    rw [lookupA_none_iff, h]
    simp only [List.map_nil, List.append_nil]
    intro h0
    rw [List.mem_iff_getElem] at h0
    obtain ⟨i, hi, hget⟩ := h0
    have hlen : (((List.range (2 ^ 32)).reverse.take (2 ^ 32 - 1))).length
        ≤ 2 ^ 32 - 1 := by
      rw [List.length_take]
      exact min_le_left _ _
    have hiL : i < 2 ^ 32 - 1 := lt_of_lt_of_le hi hlen
    have hlen2 : i < (List.range (2 ^ 32)).reverse.length := by
      simp only [List.length_reverse, List.length_range]
      omega
    rw [List.getElem_take] at hget
    rw [List.getElem_reverse] at hget
    rw [List.getElem_range] at hget
    simp only [List.length_range] at hget
    omega

end Rquest

namespace Rquest

/-- C5 (amended): Pool::new gives the idle LRU the length limit
max_pool_size when set and u32::MAX = 2^32 - 1 when unset.  An insertion
never leaves more than limit-many keys; below the limit an insertion of a
fresh key evicts nothing; at the limit an insertion of a fresh key evicts
exactly the least-recently-used key together with its whole idle list.
(When unset, a key is thus evicted for capacity only once 2^32 - 1
distinct keys are held - the LRU is not literally unbounded.) -/
theorem c5_pool_size_lru {K : Type} [DecidableEq K] (cfg : Config)
    (si : PoolInner K) (L : Nat) (k : K) (d : List IdleC)
    (m : List (K × List IdleC)) :
    (poolNew K cfg = some si →
      si.idleLimit = cfg.max_pool_size.getD (2 ^ 32 - 1)) ∧
    (m.length ≤ L → (lruGetOrInsert L k d m).length ≤ L) ∧
    (lookupA k m = none → m.length < L →
      lruGetOrInsert L k d m = (k, d) :: m) ∧
    (∀ hne : m ≠ [], (m.map Prod.fst).Nodup → lookupA k m = none →
      m.length = L → 0 < L →
      lruGetOrInsert L k d m = (k, d) :: m.dropLast ∧
      lookupA (m.getLast hne).1 (lruGetOrInsert L k d m) = none) := by
  refine ⟨?_, ?_, ?_, ?_⟩
  · intro h
    unfold poolNew at h
    by_cases he : cfg.isEnabled = true
    · rw [if_pos he] at h
      have := Option.some.inj h
      rw [← this]
    · rw [if_neg he] at h
      exact absurd h (by simp)
  · intro hlen
    unfold lruGetOrInsert
    cases hk : lookupA k m with
    | some v =>
      have := eraseKey_length_lt k v m hk
      simp only [List.length_cons]
      omega
    | none =>
      simp only []
      by_cases h : ((k, d) :: m).length > L
      · rw [if_pos h, List.length_take]
        exact min_le_left _ _
      · rw [if_neg h]
        simp only [List.length_cons] at h ⊢
        omega
  · intro hk hlen
    unfold lruGetOrInsert
    rw [hk]
    simp only []
    rw [if_neg (by simp only [List.length_cons]; omega)]
  · intro hne hnd hk hlen hL
    have heq : lruGetOrInsert L k d m = (k, d) :: m.dropLast := by
      unfold lruGetOrInsert
      rw [hk]
      simp only []
      rw [if_pos (by simp only [List.length_cons]; omega)]
      cases L with
      | zero => omega
      | succ t =>
        rw [List.take_succ_cons]
        congr 1
        rw [List.dropLast_eq_take, hlen, Nat.add_sub_cancel]
    refine ⟨heq, ?_⟩
    rw [heq]
    have hkg : k ≠ (m.getLast hne).1 := by
      intro hkk
      rw [lookupA_none_iff] at hk
      apply hk
      rw [hkk]
      exact List.mem_map_of_mem Prod.fst (List.getLast_mem hne)
    rw [lookupA_cons, if_neg (fun hh => hkg hh)]
    rw [lookupA_none_iff]
    intro hmem
    have hsplit : m.dropLast ++ [m.getLast hne] = m :=
      List.dropLast_append_getLast hne
    have hndk : (m.dropLast.map Prod.fst ++ [(m.getLast hne).1]).Nodup := by
      have : (m.dropLast ++ [m.getLast hne]).map Prod.fst = m.map Prod.fst := by
        rw [hsplit]
      rw [List.map_append] at this
      simp only [List.map_cons, List.map_nil] at this
      rw [this]
      exact hnd
    rcases List.nodup_append.mp hndk with ⟨_, _, hdisj⟩
    exact hdisj hmem (List.mem_singleton_self _)

/-- A configuration with pool size limit 2. -/
def cfg5 : Config :=
  { idle_timeout := none
    max_idle_per_host := 1
    max_pool_size := some 2 }

/-- The pool state Pool::new builds from cfg5. -/
def s5i : PoolInner Nat :=
  { connecting := []
    idle := []
    idleLimit := 2
    max_idle_per_host := 1
    waiters := []
    timeout := none }

/-- An idle LRU at capacity 2, key 1 least recently used. -/
def m5 : List (Nat × List IdleC) :=
  [(2, [⟨0, ⟨7, true, false⟩⟩]), (1, [⟨0, ⟨8, true, false⟩⟩])]

/-- Witness for the amended C5 at concrete inputs. -/
theorem c5_witness :
    s5i.idleLimit = 2 ∧
    lruGetOrInsert 2 3 ([] : List IdleC) m5 = (3, []) :: m5.dropLast ∧
    lookupA 1 (lruGetOrInsert 2 3 ([] : List IdleC) m5) = none ∧
    (lruGetOrInsert 2 3 ([] : List IdleC) [(1, ([] : List IdleC))]).length ≤ 2 := by
  have h := c5_pool_size_lru (K := Nat) cfg5 s5i 2 3 [] m5
  have h2 := c5_pool_size_lru (K := Nat) cfg5 s5i 2 3 []
    [(1, ([] : List IdleC))]
  have hd := h.2.2.2 (by decide) (by decide) (by decide) (by decide) (by decide)
  exact ⟨h.1 (by decide), hd.1, hd.2, h2.2.1 (by decide)⟩

end Rquest

namespace Rquest

/-! ## Claim C8 -/

/-- C8: sort_headers evaluated at OriginalHeaders = [1] and headers
holding the listed name 1 with one value and the unlisted name 3 with two
values.  The claim (and the function's own doc comment, "Remaining
headers are appended in their original order") requires the output to end
with the whole group (3, [11, 12]); the code's drain loop skips the
(None, value) pairs that carry the extra values of a name, so the second
value 12 is silently dropped. -/
theorem c8_sort_headers_eval :
    sortHeaders [1] [(1, [10]), (3, [11, 12])] = [(1, [10]), (3, [11])] ∧
    sortHeaders [1] [(1, [10]), (3, [11, 12])]
      ≠ listedPart [1] [(1, [10]), (3, [11, 12])]
        ++ unlistedPart [1] [(1, [10]), (3, [11, 12])] := by
  decide

end Rquest

namespace Rquest

/-! ## Claim C10: from_digits characterization -/

/-- Decimal fold with a starting accumulator. -/
def digitsValFrom (r : Nat) (l : List Nat) : Nat :=
  l.foldl (fun a b => a * 10 + (b - 48)) r

theorem le_digitsValFrom (bs : List Nat) : ∀ r : Nat, r ≤ digitsValFrom r bs := by
  induction bs with
  | nil => intro r; exact le_refl r
  | cons b bs ih =>
    intro r
    have h1 : r ≤ r * 10 + (b - 48) := by omega
    exact le_trans h1 (ih (r * 10 + (b - 48)))

theorem fromDigitsLoop_some {bs : List Nat} : ∀ (r n : Nat), r ≤ U64MAX →
    fromDigitsLoop r bs = some n →
    bs.all isDigitB = true ∧ n = digitsValFrom r bs ∧ n ≤ U64MAX := by
  induction bs with
  | nil =>
    intro r n hr h
    simp only [fromDigitsLoop] at h
    have := Option.some.inj h
    subst this
    exact ⟨rfl, rfl, hr⟩
  | cons b bs ih =>
    intro r n hr h
    simp only [fromDigitsLoop] at h
    by_cases hd : isDigitB b = true
    · rw [if_pos hd] at h
      by_cases h1 : r * 10 > U64MAX
      · rw [if_pos h1] at h
        exact absurd h (by simp)
      · rw [if_neg h1] at h
        by_cases h2 : r * 10 + (b - 48) > U64MAX
        · rw [if_pos h2] at h
          exact absurd h (by simp)
        · rw [if_neg h2] at h
          obtain ⟨ha, hv, hm⟩ := ih (r * 10 + (b - 48)) n (Nat.le_of_not_lt h2) h
          refine ⟨?_, hv, hm⟩
          rw [List.all_cons, Bool.and_eq_true]
          exact ⟨hd, ha⟩
    · rw [if_neg hd] at h
      exact absurd h (by simp)

theorem fromDigitsLoop_complete {bs : List Nat} : ∀ r : Nat,
    bs.all isDigitB = true → digitsValFrom r bs ≤ U64MAX →
    fromDigitsLoop r bs = some (digitsValFrom r bs) := by
  induction bs with
  | nil => intro r _ _; rfl
  | cons b bs ih =>
    intro r ha hle
    rw [List.all_cons, Bool.and_eq_true] at ha
    have hstep : digitsValFrom r (b :: bs)
        = digitsValFrom (r * 10 + (b - 48)) bs := rfl
    have hle2 : r * 10 + (b - 48) ≤ U64MAX :=
      le_trans (le_digitsValFrom bs _) (hstep ▸ hle)
    have h1 : ¬ r * 10 > U64MAX := by omega
    have h2 : ¬ r * 10 + (b - 48) > U64MAX := by omega
    unfold fromDigitsLoop
    rw [if_pos ha.1, if_neg h1, if_neg h2]
    exact ih (r * 10 + (b - 48)) ha.2 (hstep ▸ hle)

/-- from_digits succeeds exactly on non-empty all-digit strings whose
decimal value fits in a u64, and then returns that value. -/
theorem fromDigits_some_iff (t : List Nat) (n : Nat) :
    fromDigits t = some n ↔
      (t ≠ [] ∧ t.all isDigitB = true ∧ digitsVal t = n ∧ n ≤ U64MAX) := by
  constructor
  · intro h
    unfold fromDigits at h
    by_cases ht : t.isEmpty
    · rw [if_pos ht] at h
      exact absurd h (by simp)
    · rw [if_neg ht] at h
      obtain ⟨ha, hv, hm⟩ := fromDigitsLoop_some 0 n (Nat.zero_le _) h
      refine ⟨by simpa using ht, ha, hv.symm, hm⟩
  · rintro ⟨ht, ha, hv, hm⟩
    unfold fromDigits
    rw [if_neg (by simpa using ht)]
    have : digitsValFrom 0 t = digitsVal t := rfl
    rw [fromDigitsLoop_complete 0 ha (by rw [this, hv]; exact hm), this, hv]

/-- splitComma applied to a cons. -/
theorem splitComma_cons (c : Nat) (l : List Nat) :
    splitComma (c :: l) =
      (match splitComma l with
       | [] => [[c]]
       | cur :: rest =>
         if c = 44 then [] :: cur :: rest else (c :: cur) :: rest) := rfl

theorem splitComma_ne_nil (l : List Nat) : splitComma l ≠ [] := by
  induction l with
  | nil => simp [splitComma]
  | cons c l ih =>
    rw [splitComma_cons]
    cases h : splitComma l with
    | nil => simp
    | cons cur rest =>
      by_cases hc : c = 44 <;> simp [hc]

end Rquest

namespace Rquest

/-- One comma item parses, after trimming, to exactly n. -/
def itemOkB (n : Nat) (item : List Nat) : Bool :=
  decide (fromDigits (trimCp item) = some n)

/-- One header value is visible ASCII and all its comma items parse to
n. -/
def valOkB (n : Nat) (v : List Nat) : Bool :=
  v.all visibleAscii && (splitComma v).all (itemOkB n)

theorem toStr_some_iff (v s : List Nat) :
    toStr v = some s ↔ (s = v ∧ v.all visibleAscii = true) := by
  unfold toStr
  by_cases hv : v.all visibleAscii
  · rw [if_pos hv]
    constructor
    · intro h
      exact ⟨(Option.some.inj h).symm, hv⟩
    · rintro ⟨h, _⟩
      rw [h]
  · rw [if_neg hv]
    constructor
    · intro h
      exact absurd h (by simp)
    · rintro ⟨_, h⟩
      exact absurd h hv

theorem clItems_some_complete : ∀ (items : List (List Nat)) (mm : Nat),
    items.all (itemOkB mm) = true → clItems (some mm) items = some (some mm) := by
  intro items
  induction items with
  | nil => intro mm _; rfl
  | cons it rest ih =>
    intro mm ha
    rw [List.all_cons, Bool.and_eq_true] at ha
    have hf : fromDigits (trimCp it) = some mm := of_decide_eq_true ha.1
    simp only [clItems]
    rw [hf]
    dsimp only
    rw [if_pos rfl]
    exact ih mm ha.2

theorem clItems_some_sound : ∀ (items : List (List Nat)) (mm : Nat)
    (acc2 : Option Nat),
    clItems (some mm) items = some acc2 →
    acc2 = some mm ∧ items.all (itemOkB mm) = true := by
  intro items
  induction items with
  | nil =>
    intro mm acc2 h
    simp only [clItems] at h
    exact ⟨(Option.some.inj h).symm, rfl⟩
  | cons it rest ih =>
    intro mm acc2 h
    simp only [clItems] at h
    cases hf : fromDigits (trimCp it) with
    | none =>
      rw [hf] at h
      simp at h
    | some n =>
      rw [hf] at h
      dsimp only at h
      by_cases hmn : mm = n
      · rw [if_pos hmn] at h
        obtain ⟨h1, h2⟩ := ih mm acc2 h
        refine ⟨h1, ?_⟩
        rw [List.all_cons, Bool.and_eq_true]
        refine ⟨decide_eq_true ?_, h2⟩
        rw [hf, hmn]
      · rw [if_neg hmn] at h
        simp at h

theorem clItems_none_complete : ∀ (items : List (List Nat)) (n : Nat),
    items ≠ [] → items.all (itemOkB n) = true →
    clItems none items = some (some n) := by
  intro items n hne ha
  cases items with
  | nil => exact absurd rfl hne
  | cons it rest =>
    rw [List.all_cons, Bool.and_eq_true] at ha
    have hf : fromDigits (trimCp it) = some n := of_decide_eq_true ha.1
    simp only [clItems]
    rw [hf]
    dsimp only
    exact clItems_some_complete rest n ha.2

theorem clItems_none_sound : ∀ (items : List (List Nat)) (acc2 : Option Nat),
    clItems none items = some acc2 →
    (items = [] ∧ acc2 = none) ∨
    ∃ mm, acc2 = some mm ∧ items.all (itemOkB mm) = true := by
  intro items acc2 h
  cases items with
  | nil =>
    left
    simp only [clItems] at h
    exact ⟨rfl, (Option.some.inj h).symm⟩
  | cons it rest =>
    right
    simp only [clItems] at h
    cases hf : fromDigits (trimCp it) with
    | none =>
      rw [hf] at h
      simp at h
    | some n =>
      rw [hf] at h
      dsimp only at h
      obtain ⟨h1, h2⟩ := clItems_some_sound rest n acc2 h
      refine ⟨n, h1, ?_⟩
      rw [List.all_cons, Bool.and_eq_true]
      exact ⟨decide_eq_true hf, h2⟩

end Rquest

namespace Rquest

theorem clValues_some_iff : ∀ (values : List (List Nat)) (mm n : Nat),
    clValues (some mm) values = some n ↔
      (n = mm ∧ values.all (valOkB mm) = true) := by
  intro values
  induction values with
  | nil =>
    intro mm n
    simp only [clValues, List.all_nil, and_true]
    constructor
    · intro h
      exact (Option.some.inj h).symm
    · intro h
      rw [h]
  | cons v rest ih =>
    intro mm n
    constructor
    · intro h
      simp only [clValues] at h
      cases ht : toStr v with
      | none =>
        rw [ht] at h
        simp at h
      | some s =>
        rw [ht] at h
        dsimp only at h
        cases hci : clItems (some mm) (splitComma s) with
        | none =>
          rw [hci] at h
          simp at h
        | some acc2 =>
          rw [hci] at h
          dsimp only at h
          obtain ⟨hacc, hall⟩ := clItems_some_sound _ mm acc2 hci
          subst hacc
          obtain ⟨hn, hrest⟩ := (ih mm n).mp h
          refine ⟨hn, ?_⟩
          rw [List.all_cons, Bool.and_eq_true]
          refine ⟨?_, hrest⟩
          obtain ⟨hsv, hvis⟩ := (toStr_some_iff v s).mp ht
          unfold valOkB
          rw [Bool.and_eq_true]
          exact ⟨hvis, hsv ▸ hall⟩
    · rintro ⟨hn, hall⟩
      subst hn
      rw [List.all_cons, Bool.and_eq_true] at hall
      obtain ⟨hv, hrest⟩ := hall
      unfold valOkB at hv
      rw [Bool.and_eq_true] at hv
      simp only [clValues]
      rw [(toStr_some_iff v v).mpr ⟨rfl, hv.1⟩]
      dsimp only
      rw [clItems_some_complete _ n hv.2]
      dsimp only
      exact (ih n n).mpr ⟨rfl, hrest⟩

end Rquest

namespace Rquest

theorem clValues_none_iff (values : List (List Nat)) (n : Nat) :
    clValues none values = some n ↔
      (values ≠ [] ∧ values.all (valOkB n) = true) := by
  cases values with
  | nil =>
    simp only [clValues]
    constructor
    · intro h
      exact absurd h (by simp)
    · rintro ⟨h, _⟩
      exact absurd rfl h
  | cons v rest =>
    constructor
    · intro h
      refine ⟨by simp, ?_⟩
      simp only [clValues] at h
      cases ht : toStr v with
      | none =>
        rw [ht] at h
        simp at h
      | some s =>
        rw [ht] at h
        dsimp only at h
        cases hci : clItems none (splitComma s) with
        | none =>
          rw [hci] at h
          simp at h
        | some acc2 =>
          rw [hci] at h
          dsimp only at h
          rcases clItems_none_sound _ acc2 hci with ⟨hemp, _⟩ | ⟨mm, hacc, hall⟩
          · exact absurd hemp (splitComma_ne_nil s)
          · subst hacc
            obtain ⟨hn, hrest⟩ := (clValues_some_iff rest mm n).mp h
            subst hn
            rw [List.all_cons, Bool.and_eq_true]
            obtain ⟨hsv, hvis⟩ := (toStr_some_iff v s).mp ht
            refine ⟨?_, hrest⟩
            unfold valOkB
            rw [Bool.and_eq_true]
            exact ⟨hvis, hsv ▸ hall⟩
    · rintro ⟨_, hall⟩
      rw [List.all_cons, Bool.and_eq_true] at hall
      obtain ⟨hv, hrest⟩ := hall
      unfold valOkB at hv
      rw [Bool.and_eq_true] at hv
      simp only [clValues]
      rw [(toStr_some_iff v v).mpr ⟨rfl, hv.1⟩]
      dsimp only
      rw [clItems_none_complete _ n (splitComma_ne_nil v) hv.2]
      dsimp only
      exact (clValues_some_iff rest n n).mpr ⟨rfl, hrest⟩

theorem itemOkB_iff (n : Nat) (it : List Nat) :
    itemOkB n it = true ↔ (goodItem n it = true ∧ n ≤ U64MAX) := by
  unfold itemOkB goodItem
  rw [decide_eq_true_eq, fromDigits_some_iff]
  simp only [Bool.and_eq_true, decide_eq_true_eq, Bool.not_eq_true',
    List.isEmpty_eq_false]
  constructor
  · rintro ⟨h1, h2, h3, h4⟩
    exact ⟨⟨⟨h1, h2⟩, h3⟩, h4⟩
  · rintro ⟨⟨⟨h1, h2⟩, h3⟩, h4⟩
    exact ⟨h1, h2, h3, h4⟩

end Rquest

namespace Rquest

/-- C10 (amended): content_length_parse_all_values returns Some n exactly
when the value sequence is non-empty, every value consists of visible
ASCII bytes (the check performed by HeaderValue::to_str - not mere UTF-8
validity), and every comma-separated item, after trimming, is a non-empty
all-ASCII-digit string of the same value n not exceeding u64::MAX; and it
returns None on an empty sequence. -/
theorem c10_content_length (values : List (List Nat)) (n : Nat) :
    (contentLengthParseAllValues values = some n ↔
      specCLBytes values n = true) ∧
    contentLengthParseAllValues [] = none := by
  refine ⟨?_, rfl⟩
  show clValues none values = some n ↔ _
  rw [clValues_none_iff]
  unfold specCLBytes
  simp only [Bool.and_eq_true, decide_eq_true_eq, Bool.not_eq_true',
    List.isEmpty_eq_false, List.all_eq_true]
  constructor
  · rintro ⟨hne, hall⟩
    obtain ⟨v0, rest0, rfl⟩ := List.exists_cons_of_ne_nil hne
    have hv0 := hall v0 (List.mem_cons_self _ _)
    unfold valOkB at hv0
    simp only [Bool.and_eq_true, List.all_eq_true] at hv0
    obtain ⟨it0, its0, hsp⟩ := List.exists_cons_of_ne_nil (splitComma_ne_nil v0)
    have hit0 := hv0.2 it0 (by rw [hsp]; exact List.mem_cons_self _ _)
    have hmax := ((itemOkB_iff n it0).mp hit0).2
    refine ⟨⟨by simp, hmax⟩, ?_⟩
    intro v hv
    have h2 := hall v hv
    unfold valOkB at h2
    simp only [Bool.and_eq_true, List.all_eq_true] at h2
    exact ⟨h2.1, fun it hit => ((itemOkB_iff n it).mp (h2.2 it hit)).1⟩
  · rintro ⟨⟨hne, hmax⟩, hall⟩
    refine ⟨hne, ?_⟩
    intro v hv
    have h2 := hall v hv
    unfold valOkB
    simp only [Bool.and_eq_true, List.all_eq_true]
    exact ⟨h2.1, fun it hit => (itemOkB_iff n it).mpr ⟨h2.2 it hit, hmax⟩⟩

/-- Counterexample for C10 as stated: the header value bytes
[0xC2, 0xA0, 0x31] ("no-break space" then "1") are valid UTF-8 and trim,
under Unicode trimming, to the digit string "1", so the claim's
right-hand side holds with n = 1; but HeaderValue::to_str rejects the
non-ASCII byte 0xC2, so the code returns None.  "Valid UTF-8" is not the
condition the code checks. -/
theorem c10_counterexample :
    ¬ (contentLengthParseAllValues [[194, 160, 49]] = some 1 ↔
        specCLUtf8 [[194, 160, 49]] 1 = true) := by
  decide

end Rquest
